import Mathlib

/-!
Verification of the molecular-docking evaluator core pipeline
(normalization, composite scoring, dual-level ranking).

Embedding conventions:
* Python floats are modelled as exact rationals.  A float that may be NaN
  (pandas missing value) is modelled as an `Option ℚ` with `none` for NaN;
  arithmetic on such values propagates `none` exactly as IEEE NaN
  propagates through `+`, `*`, `/`, and comparisons with NaN are `false`.
* pandas rows are association lists from column names to NaN-able values;
  membership of a key models column presence in the row index.
* The z-score branch of the normalizer is transcendental (sigmoid of a
  z-value built from a square root), so it is embedded in `ℝ`; everything
  else stays in `ℚ` and is executable.
-/

namespace MDE

/-- NaN-propagating addition on NaN-able floats (`none` = NaN). -/
def nadd (a b : Option ℚ) : Option ℚ :=
  match a, b with
  | some x, some y => some (x + y)
  | _, _ => none

/-- Multiplication of a (non-NaN) scalar with a NaN-able float. -/
def nmul (w : ℚ) (a : Option ℚ) : Option ℚ :=
  a.map (fun x => w * x)

/-- Strict `<` on NaN-able floats: any comparison involving NaN is false,
as in IEEE floating point (used by the Python `min` key comparison). -/
def nlt (a b : Option ℚ) : Bool :=
  match a, b with
  | some x, some y => decide (x < y)
  | _, _ => false

/-- One measurement row: conformation identity (`title`,
`i_i_glide_lignum`), protein-group label, and an association list from
column names to NaN-able values.  A key present with value `none` models
a column that exists in the pandas row index but holds NaN; a missing key
models a column absent from the row index. -/
structure Row where
  title : Int
  lignum : Int
  protein : String
  vals : List (String × Option ℚ)
deriving DecidableEq

/-- config.py REQUIRED_METRICS. -/
def REQUIRED_METRICS : List String :=
  ["r_i_docking_score", "r_i_glide_gscore", "r_i_glide_emodel", "r_i_glide_energy"]

/-- config.py OPTIONAL_METRICS. -/
def OPTIONAL_METRICS : List String :=
  ["r_i_glide_lipo", "r_i_glide_hbond", "r_i_glide_metal", "r_i_glide_rewards",
   "r_i_glide_evdw", "r_i_glide_ecoul", "r_i_glide_erotb", "r_i_glide_esite",
   "r_i_glide_einternal"]

/-- config.py DOCKING_METRICS. -/
def DOCKING_METRICS : List String :=
  ["r_i_docking_score", "r_i_glide_gscore"]

/-- config.py ENERGY_METRICS. -/
def ENERGY_METRICS : List String :=
  ["r_i_glide_emodel", "r_i_glide_energy"]

/-- MetricsProcessor.get_normalized_column_name. -/
def get_normalized_column_name (metric : String) : String :=
  "normalized_" ++ metric

/-- MetricsProcessor.get_normalized_value: the value of the normalized
column if that column is in the row index (possibly NaN), else 1.0. -/
def get_normalized_value (row : Row) (metric : String) : Option ℚ :=
  match row.vals.lookup (get_normalized_column_name metric) with
  | some v => v
  | none => some 1

/-- Python `weights.get(metric, 1.0)`: metric weight with default 1.0. -/
def weight_of (weights : List (String × ℚ)) (metric : String) : ℚ :=
  (weights.lookup metric).getD 1

/-- MetricsProcessor.calculate_weighted_score.  Restrict `metrics` to
those whose normalized column is in the row index; 1.0 if none; otherwise
the weight-sum-normalized weighted sum, 1.0 if the weights sum to zero.
The weighted sum is NaN-propagating (a NaN normalized value makes the
result NaN). -/
def calculate_weighted_score (row : Row) (metrics : List String)
    (weights : List (String × ℚ)) : Option ℚ :=
  let valid_metrics := metrics.filter
    (fun m => (row.vals.lookup (get_normalized_column_name m)).isSome)
  if valid_metrics = [] then some 1
  else
    let acc := valid_metrics.foldl
      (fun (p : Option ℚ × ℚ) m =>
        (nadd p.1 (nmul (weight_of weights m) (get_normalized_value row m)),
         p.2 + weight_of weights m))
      (some 0, 0)
    if acc.2 = 0 then some 1
    else acc.1.map (fun s => s / acc.2)

/-- MetricsProcessor.calculate_docking_score. -/
def calculate_docking_score (row : Row) (weights : List (String × ℚ)) : Option ℚ :=
  calculate_weighted_score row DOCKING_METRICS weights

/-- MetricsProcessor.calculate_energy_score. -/
def calculate_energy_score (row : Row) (weights : List (String × ℚ)) : Option ℚ :=
  calculate_weighted_score row ENERGY_METRICS weights

/-- MetricsProcessor.calculate_optional_score: restrict the selected
metrics to the optional catalog; `(0.0, false)` if empty, otherwise the
weighted score paired with `true`. -/
def calculate_optional_score (row : Row) (selected_metrics : List String)
    (weights : List (String × ℚ)) : Option ℚ × Bool :=
  let optional_metrics := selected_metrics.filter (fun m => m ∈ OPTIONAL_METRICS)
  if optional_metrics = [] then (some 0, false)
  else (calculate_weighted_score row optional_metrics weights, true)

/-- MetricsProcessor.calculate_composite_score, returning
(total, docking, energy).  When the optional category participates the
three category weights are applied as given (no renormalization); when it
does not, the docking and energy weights are renormalized by their sum.
(The Python code raises ZeroDivisionError when that sum is 0.0; rational
division by zero in the embedding only matters under hypotheses that
exclude it.) -/
def calculate_composite_score (row : Row) (selected_metrics : List String)
    (weights : List (String × ℚ))
    (docking_weight energy_weight optional_weight : ℚ) :
    Option ℚ × Option ℚ × Option ℚ :=
  let docking_score := calculate_docking_score row weights
  let energy_score := calculate_energy_score row weights
  let opt := calculate_optional_score row selected_metrics weights
  let total_score :=
    if opt.2 then
      nadd (nadd (nmul docking_weight docking_score)
                 (nmul energy_weight energy_score))
           (nmul optional_weight opt.1)
    else
      nadd (nmul (docking_weight / (docking_weight + energy_weight)) docking_score)
           (nmul (energy_weight / (docking_weight + energy_weight)) energy_score)
  (total_score, docking_score, energy_score)

/-- An association-list lookup hit produces a member of the list. -/
theorem lookup_mem {α β : Type} [BEq α] [LawfulBEq α] :
    ∀ {l : List (α × β)} {k : α} {v : β}, l.lookup k = some v → (k, v) ∈ l := by
  intro l
  induction l with
  | nil => intro k v h; simp [List.lookup] at h
  | cons a l ih =>
    intro k v h
    rw [List.lookup] at h
    cases hk : (k == a.1) with
    | true =>
      rw [hk] at h
      cases h
      have hka : k = a.1 := by simpa using hk
      cases a
      subst hka
      exact List.mem_cons_self _ _
    | false =>
      rw [hk] at h
      right
      exact ih h

/-- Metric weights drawn from a non-negative weight mapping (with the
default 1.0 for absent metrics) are non-negative. -/
theorem weight_of_nonneg (weights : List (String × ℚ)) (m : String)
    (hw : ∀ p ∈ weights, 0 ≤ p.2) : 0 ≤ weight_of weights m := by
  unfold weight_of
  cases h : weights.lookup m with
  | none => simp
  | some w =>
    simpa using hw (m, w) (lookup_mem h)

/-- If every normalized column present in the row holds a non-NaN value
in the unit interval, then every normalized metric read is a non-NaN
value in the unit interval (the absent-column fallback is 1.0). -/
theorem get_normalized_value_unit (row : Row)
    (hv : ∀ m v, row.vals.lookup (get_normalized_column_name m) = some v →
      ∃ x, v = some x ∧ 0 ≤ x ∧ x ≤ 1) :
    ∀ m, ∃ x, get_normalized_value row m = some x ∧ 0 ≤ x ∧ x ≤ 1 := by
  intro m
  unfold get_normalized_value
  cases h : row.vals.lookup (get_normalized_column_name m) with
  | none => exact ⟨1, rfl, by norm_num⟩
  | some v =>
    obtain ⟨x, rfl, hx⟩ := hv m v h
    exact ⟨x, rfl, hx⟩

/-- Invariant of the weighted-sum fold: starting from a non-NaN partial
sum bounded by the partial weight, the fold yields a non-NaN sum bounded
by the total weight. -/
theorem weighted_fold_bound (row : Row) (weights : List (String × ℚ))
    (hw : ∀ p ∈ weights, 0 ≤ p.2)
    (hv : ∀ m, ∃ x, get_normalized_value row m = some x ∧ 0 ≤ x ∧ x ≤ 1) :
    ∀ (L : List String) (s t : ℚ), 0 ≤ s → s ≤ t →
    ∃ s2 t2,
      L.foldl (fun (p : Option ℚ × ℚ) m =>
          (nadd p.1 (nmul (weight_of weights m) (get_normalized_value row m)),
           p.2 + weight_of weights m)) (some s, t) = (some s2, t2) ∧
      0 ≤ s2 ∧ s2 ≤ t2 := by
  intro L
  induction L with
  | nil => intro s t h0 h1; exact ⟨s, t, rfl, h0, h1⟩
  | cons m L ih =>
    intro s t h0 h1
    obtain ⟨x, hx, hx0, hx1⟩ := hv m
    have hwm := weight_of_nonneg weights m hw
    have step : (nadd (some s) (nmul (weight_of weights m) (get_normalized_value row m)),
        t + weight_of weights m) =
        ((some (s + weight_of weights m * x) : Option ℚ), t + weight_of weights m) := by
      rw [hx]; rfl
    rw [List.foldl_cons, step]
    exact ih (s + weight_of weights m * x) (t + weight_of weights m)
      (by positivity)
      (by nlinarith)

/-- The category score is always a non-NaN value in the unit interval
when the metric weights are non-negative and all normalized columns
present in the row hold non-NaN unit-interval values. -/
theorem calculate_weighted_score_unit (row : Row) (metrics : List String)
    (weights : List (String × ℚ))
    (hw : ∀ p ∈ weights, 0 ≤ p.2)
    (hv : ∀ m v, row.vals.lookup (get_normalized_column_name m) = some v →
      ∃ x, v = some x ∧ 0 ≤ x ∧ x ≤ 1) :
    ∃ q, calculate_weighted_score row metrics weights = some q ∧ 0 ≤ q ∧ q ≤ 1 := by
  unfold calculate_weighted_score
  by_cases hempty : metrics.filter
      (fun m => (row.vals.lookup (get_normalized_column_name m)).isSome) = []
  · exact ⟨1, by simp [hempty], by norm_num⟩
  · obtain ⟨s2, t2, hfold, hs0, hst⟩ :=
      weighted_fold_bound row weights hw (get_normalized_value_unit row hv)
        (metrics.filter (fun m => (row.vals.lookup (get_normalized_column_name m)).isSome))
        0 0 le_rfl le_rfl
    by_cases ht : t2 = 0
    · refine ⟨1, ?_, by norm_num⟩
      simp only [hempty, if_false, hfold, ht, if_true]
    · refine ⟨s2 / t2, ?_, ?_, ?_⟩
      · simp only [hempty, if_false, hfold, ht, if_false]
        simp [ht]
      · have : 0 < t2 := lt_of_le_of_ne (le_trans hs0 hst) (Ne.symm ht)
        positivity
      · have hpos : 0 < t2 := lt_of_le_of_ne (le_trans hs0 hst) (Ne.symm ht)
        exact (div_le_one hpos).mpr hst

/-- The exact value of the weighted-sum fold when every normalized
metric read along the list is the non-NaN value given by `x`. -/
theorem weighted_fold_eq (row : Row) (weights : List (String × ℚ)) (x : String → ℚ) :
    ∀ (L : List String), (∀ m ∈ L, get_normalized_value row m = some (x m)) →
    ∀ (s t : ℚ),
    L.foldl (fun (p : Option ℚ × ℚ) m =>
        (nadd p.1 (nmul (weight_of weights m) (get_normalized_value row m)),
         p.2 + weight_of weights m)) (some s, t)
      = (some (s + (L.map (fun m => weight_of weights m * x m)).sum),
         t + (L.map (fun m => weight_of weights m)).sum) := by
  intro L
  induction L with
  | nil => intro _ s t; simp
  | cons m L ih =>
    intro hvals s t
    have hm : get_normalized_value row m = some (x m) := hvals m (by simp)
    have step : (nadd (some s) (nmul (weight_of weights m) (get_normalized_value row m)),
        t + weight_of weights m) =
        ((some (s + weight_of weights m * x m) : Option ℚ), t + weight_of weights m) := by
      rw [hm]; rfl
    rw [List.foldl_cons, step, ih (fun a ha => hvals a (by simp [ha]))]
    simp only [List.map_cons, List.sum_cons, Prod.mk.injEq, Option.some.injEq]
    constructor <;> ring

/-- C5: the category score equals the weight-normalized weighted sum over
exactly the metrics of the subset whose normalized column is present in
the row, with default weight 1.0, and equals 1.0 when that restriction is
empty or when its weights sum to zero.  Hypothesis: the normalized
columns present in the row hold non-NaN values given by `x`. -/
theorem category_score_spec (row : Row) (metrics : List String)
    (weights : List (String × ℚ)) (x : String → ℚ)
    (hv : ∀ m ∈ metrics, ∀ v,
      row.vals.lookup (get_normalized_column_name m) = some v → v = some (x m)) :
    calculate_weighted_score row metrics weights =
      some (
        if metrics.filter
            (fun m => (row.vals.lookup (get_normalized_column_name m)).isSome) = [] then 1
        else if ((metrics.filter
            (fun m => (row.vals.lookup (get_normalized_column_name m)).isSome)).map
              (fun m => weight_of weights m)).sum = 0 then 1
        else ((metrics.filter
            (fun m => (row.vals.lookup (get_normalized_column_name m)).isSome)).map
              (fun m => weight_of weights m * x m)).sum /
             ((metrics.filter
            (fun m => (row.vals.lookup (get_normalized_column_name m)).isSome)).map
              (fun m => weight_of weights m)).sum) := by
  by_cases hempty : metrics.filter
      (fun m => (row.vals.lookup (get_normalized_column_name m)).isSome) = []
  · simp only [calculate_weighted_score, hempty, if_true]
  · have hmem : ∀ m ∈ metrics.filter
        (fun m => (row.vals.lookup (get_normalized_column_name m)).isSome),
        get_normalized_value row m = some (x m) := by
      intro m hm
      rw [List.mem_filter] at hm
      obtain ⟨hmm, hsome⟩ := hm
      cases hvv : row.vals.lookup (get_normalized_column_name m) with
      | none => rw [hvv] at hsome; simp at hsome
      | some v =>
        have := hv m hmm v hvv
        subst this
        unfold get_normalized_value
        rw [hvv]
    have hfold := weighted_fold_eq row weights x
      (metrics.filter (fun m => (row.vals.lookup (get_normalized_column_name m)).isSome))
      hmem 0 0
    simp only [calculate_weighted_score, hempty, if_false, hfold, zero_add]
    by_cases hzero : ((metrics.filter
        (fun m => (row.vals.lookup (get_normalized_column_name m)).isSome)).map
          (fun m => weight_of weights m)).sum = 0
    · simp [hzero]
    · simp [hzero]

/-- Witness for category_score_spec (C5) at a concrete row. -/
theorem category_score_spec_witness :
    calculate_weighted_score
      ⟨0, 0, "A", [("normalized_r_i_docking_score", some (1/2))]⟩ DOCKING_METRICS []
      = some (1/2) := by
  have h := category_score_spec
    ⟨0, 0, "A", [("normalized_r_i_docking_score", some (1/2))]⟩ DOCKING_METRICS []
    (fun _ => 1/2)
    (by
      intro m hm v hvv
      rw [List.lookup] at hvv
      cases hk : (get_normalized_column_name m == "normalized_r_i_docking_score") with
      | true => rw [hk] at hvv; injection hvv with h2; exact h2.symm
      | false => rw [hk] at hvv; simp [List.lookup] at hvv)
  rw [h]
  simp [DOCKING_METRICS, get_normalized_column_name, weight_of, List.lookup]

/-- C1 counterexample: with the optional category participating and the
non-negative category weights (1, 1, 1), a row with no normalized
columns receives total score 3, outside the unit interval.  The
participating branch applies the category weights without
renormalization. -/
theorem total_score_not_unit_counterexample :
    (calculate_composite_score ⟨0, 0, "A", []⟩ ["r_i_glide_lipo"] [] 1 1 1).1 = some 3 ∧
    ¬ ((3 : ℚ) ≤ 1) := by
  constructor
  · simp [calculate_composite_score, calculate_docking_score, calculate_energy_score,
      calculate_optional_score, calculate_weighted_score, OPTIONAL_METRICS,
      DOCKING_METRICS, ENERGY_METRICS, get_normalized_value, get_normalized_column_name,
      weight_of, nadd, nmul, List.lookup]
    norm_num
  · norm_num

/-- C1 (amended): the total score is a non-NaN value in the unit
interval whenever the normalized columns present in the row hold non-NaN
unit-interval values, the metric weights are non-negative, the three
category weights are non-negative and sum to at most 1, and the docking
and energy weights have positive sum.  (As stated the claim fails: the
participating branch does not renormalize the category weights, so a
weight sum above 1 escapes the unit interval, and a zero docking+energy
weight sum makes the non-participating branch divide by zero.) -/
theorem total_score_in_unit_interval (row : Row) (selected : List String)
    (weights : List (String × ℚ)) (wd we wo : ℚ)
    (hwd : 0 ≤ wd) (hwe : 0 ≤ we) (hwo : 0 ≤ wo)
    (hsum : wd + we + wo ≤ 1) (hde : 0 < wd + we)
    (hw : ∀ p ∈ weights, 0 ≤ p.2)
    (hv : ∀ m v, row.vals.lookup (get_normalized_column_name m) = some v →
      ∃ x, v = some x ∧ 0 ≤ x ∧ x ≤ 1) :
    ∃ q, (calculate_composite_score row selected weights wd we wo).1 = some q ∧
      0 ≤ q ∧ q ≤ 1 := by
  obtain ⟨d, hd, hd0, hd1⟩ :=
    calculate_weighted_score_unit row DOCKING_METRICS weights hw hv
  obtain ⟨e, he, he0, he1⟩ :=
    calculate_weighted_score_unit row ENERGY_METRICS weights hw hv
  by_cases hfil : selected.filter (fun m => m ∈ OPTIONAL_METRICS) = []
  · refine ⟨wd / (wd + we) * d + we / (wd + we) * e, ?_, ?_, ?_⟩
    · simp only [calculate_composite_score, calculate_docking_score,
        calculate_energy_score, calculate_optional_score, hfil, if_true]
      simp only [hd, he, nadd, nmul, Option.map]
      simp
    · have h1 : 0 ≤ wd / (wd + we) := by positivity
      have h2 : 0 ≤ we / (wd + we) := by positivity
      nlinarith
    · have hle : wd / (wd + we) * d + we / (wd + we) * e ≤
          wd / (wd + we) + we / (wd + we) := by
        have h1 : 0 ≤ wd / (wd + we) := by positivity
        have h2 : 0 ≤ we / (wd + we) := by positivity
        nlinarith
      have heq : wd / (wd + we) + we / (wd + we) = 1 := by
        rw [div_add_div_same, div_self (ne_of_gt hde)]
      linarith
  · obtain ⟨o, ho, ho0, ho1⟩ :=
      calculate_weighted_score_unit row
        (selected.filter (fun m => m ∈ OPTIONAL_METRICS)) weights hw hv
    refine ⟨wd * d + we * e + wo * o, ?_, ?_, ?_⟩
    · simp only [calculate_composite_score, calculate_docking_score,
        calculate_energy_score, calculate_optional_score, hfil, if_false]
      simp only [hd, he, ho, nadd, nmul, Option.map]
      simp
    · nlinarith
    · nlinarith

/-- Witness for total_score_in_unit_interval (C1) with the default
category weights at a concrete row. -/
theorem total_score_in_unit_interval_witness :
    ∃ q, (calculate_composite_score
      ⟨0, 0, "A", [("normalized_r_i_docking_score", some (1/2))]⟩
      [] [] (2/5) (2/5) (1/5)).1 = some q ∧ 0 ≤ q ∧ q ≤ 1 :=
  total_score_in_unit_interval
    ⟨0, 0, "A", [("normalized_r_i_docking_score", some (1/2))]⟩ [] []
    (2/5) (2/5) (1/5)
    (by norm_num) (by norm_num) (by norm_num) (by norm_num) (by norm_num)
    (by simp)
    (by
      intro m v hvv
      rw [List.lookup] at hvv
      cases hk : (get_normalized_column_name m == "normalized_r_i_docking_score") with
      | true =>
        rw [hk] at hvv
        injection hvv with h2
        exact ⟨1/2, h2.symm, by norm_num, by norm_num⟩
      | false => rw [hk] at hvv; simp [List.lookup] at hvv)

/-- C4: when no caller-selected metric is optional, the total score is
the docking and energy category scores combined with weights
renormalized by their sum (NaN-propagating on both sides). -/
theorem reweighting_identity (row : Row) (selected : List String)
    (weights : List (String × ℚ)) (wd we wo : ℚ)
    (hopt : selected.filter (fun m => m ∈ OPTIONAL_METRICS) = [])
    (hde : 0 < wd + we) :
    (calculate_composite_score row selected weights wd we wo).1 =
      (nadd (nmul wd (calculate_docking_score row weights))
            (nmul we (calculate_energy_score row weights))).map
        (fun s => s / (wd + we)) := by
  simp only [calculate_composite_score, calculate_optional_score, hopt, if_true]
  cases hd : calculate_docking_score row weights with
  | none => cases he : calculate_energy_score row weights <;> simp [nadd, nmul]
  | some dv =>
    cases he : calculate_energy_score row weights with
    | none => simp [nadd, nmul]
    | some ev =>
      simp only [nadd, nmul, Option.map]
      field_simp

/-- Witness for reweighting_identity (C4) at a concrete row. -/
theorem reweighting_identity_witness :
    (calculate_composite_score ⟨0, 0, "A", []⟩ [] [] (2/5) (2/5) (1/5)).1 =
      (nadd (nmul (2/5) (calculate_docking_score ⟨0, 0, "A", []⟩ []))
            (nmul (2/5) (calculate_energy_score ⟨0, 0, "A", []⟩ []))).map
        (fun s => s / (2/5 + 2/5)) :=
  reweighting_identity ⟨0, 0, "A", []⟩ [] [] (2/5) (2/5) (1/5)
    (by simp) (by norm_num)

/-- The scoring section of the global configuration: each category
weight is either unset (`none`) or set to a float. -/
structure ScoringConfig where
  docking_weight : Option ℚ
  energy_weight : Option ℚ
  optional_weight : Option ℚ
deriving DecidableEq

/-- The Python idiom `config.get("scoring", key) or default`: an unset
key yields `None` and a configured 0.0 is falsy, so both fall back to
the default. -/
def config_weight_or (c : Option ℚ) (d : ℚ) : ℚ :=
  match c with
  | none => d
  | some v => if v = 0 then d else v

/-- The three category weights read by Scorer.score_data and
Scorer.score_conformation_protein_pairs (defaults 0.4, 0.4, 0.2). -/
def scoring_weights (cfg : ScoringConfig) : ℚ × ℚ × ℚ :=
  (config_weight_or cfg.docking_weight 0.4,
   config_weight_or cfg.energy_weight 0.4,
   config_weight_or cfg.optional_weight 0.2)

/-- The three score values attached to a row, plus the raw row stored as
raw_data. -/
structure ScoreTriple where
  total_score : Option ℚ
  docking_score : Option ℚ
  energy_score : Option ℚ
  raw_data : Row
deriving DecidableEq

/-- Scoring of one row inside Scorer.score_data and
Scorer.score_conformation_protein_pairs. -/
def score_row (cfg : ScoringConfig) (selected_metrics : List String)
    (weights : List (String × ℚ)) (r : Row) : ScoreTriple :=
  let t := calculate_composite_score r selected_metrics weights
    (scoring_weights cfg).1 (scoring_weights cfg).2.1 (scoring_weights cfg).2.2
  ⟨t.1, t.2.1, t.2.2, r⟩

/-- Scorer.score_data: one score triple per row, in row order. -/
def score_data (cfg : ScoringConfig) (df : List Row)
    (selected_metrics : List String) (weights : List (String × ℚ)) :
    List ScoreTriple :=
  df.map (score_row cfg selected_metrics weights)

/-- Python dict update `d[k] = v`: replace in place if the key exists,
else append (insertion order preserved). -/
def upsert_protein (l : List (String × ScoreTriple)) (p : String)
    (v : ScoreTriple) : List (String × ScoreTriple) :=
  match l with
  | [] => [(p, v)]
  | (q, u) :: rest =>
    if q = p then (q, v) :: rest else (q, u) :: upsert_protein rest p v

/-- Python nested dict update `conformations[c][p] = v` (creating
`conformations[c]` on first sight of `c`). -/
def upsert_conf (l : List ((Int × Int) × List (String × ScoreTriple)))
    (c : Int × Int) (p : String) (v : ScoreTriple) :
    List ((Int × Int) × List (String × ScoreTriple)) :=
  match l with
  | [] => [(c, [(p, v)])]
  | (c0, ps) :: rest =>
    if c0 = c then (c0, upsert_protein ps p v) :: rest
    else (c0, ps) :: upsert_conf rest c p v

/-- Scorer.score_conformation_protein_pairs: iterate the rows in order,
keying an insertion-ordered dict by conformation identity, each holding
an insertion-ordered dict keyed by protein.  A later row with the same
identity and protein overwrites the earlier entry. -/
def score_conformation_protein_pairs (cfg : ScoringConfig) (df : List Row)
    (selected_metrics : List String) (weights : List (String × ℚ)) :
    List ((Int × Int) × List (String × ScoreTriple)) :=
  df.foldl (fun acc r =>
    upsert_conf acc (r.title, r.lignum) r.protein
      (score_row cfg selected_metrics weights r)) []

/-- Fallback row for the (unreachable) empty-candidate case of the
Python `min`. -/
def default_pair : String × ScoreTriple := ("", ⟨none, none, none, ⟨0, 0, "", []⟩⟩)

/-- Python `min(items, key=total_score)`: first strictly-smaller
candidate replaces the current best, so the first minimum wins;
comparisons against NaN are false, as in floating point. -/
def min_by_total : List (String × ScoreTriple) → String × ScoreTriple
  | [] => default_pair
  | x :: xs =>
    xs.foldl (fun best y =>
      if nlt y.2.total_score best.2.total_score then y else best) x

/-- One Conformation Ranking Entry. -/
structure ConfEntry where
  title : Int
  lignum : Int
  total_score : Option ℚ
  docking_score : Option ℚ
  energy_score : Option ℚ
  best_protein : String
  raw_data : Row
deriving DecidableEq

/-- Ranker.rank_conformations: per identity pick the minimum-total
candidate (first wins on ties), then stable-sort ascending by total
score.  Python list.sort is a stable sort; on NaN-free keys any stable
sort with the same comparator produces the same list, so mergeSort is
used (NaN keys make the Python sort order unspecified and are outside
the theorems below). -/
def rank_conformations (cfg : ScoringConfig) (df : List Row)
    (selected_metrics : List String) (weights : List (String × ℚ)) :
    List ConfEntry :=
  let confs := score_conformation_protein_pairs cfg df selected_metrics weights
  (confs.map (fun cp =>
    let best := min_by_total cp.2
    ⟨cp.1.1, cp.1.2, best.2.total_score, best.2.docking_score,
     best.2.energy_score, best.1, best.2.raw_data⟩)).mergeSort
    (fun a b => ! nlt b.total_score a.total_score)

/-- A configured weight of zero (or an unset weight) falls back to the
default; non-zero defaults therefore never resolve to zero. -/
theorem config_weight_or_cases (c : Option ℚ) (d : ℚ) :
    ((c = none ∨ c = some 0) → config_weight_or c d = d) ∧
    (∀ v : ℚ, v ≠ 0 → c = some v → config_weight_or c d = v) ∧
    (d ≠ 0 → config_weight_or c d ≠ 0) := by
  refine ⟨?_, ?_, ?_⟩
  · rintro (rfl | rfl) <;> simp [config_weight_or]
  · rintro v hv rfl
    simp [config_weight_or, hv]
  · intro hd
    cases c with
    | none => simpa [config_weight_or] using hd
    | some v =>
      by_cases hv : v = 0 <;> simp [config_weight_or, hv, hd]

/-- C9: the category weights used by score_data and
score_conformation_protein_pairs come from the configuration with a
falsy-value fallback: an unset or zero configured docking, energy or
optional weight is replaced by the default 0.4, 0.4 or 0.2 respectively,
a non-zero configured value is used as given, and no resolved category
weight is ever zero. -/
theorem config_weight_fallback (cfg : ScoringConfig) :
    ((cfg.docking_weight = none ∨ cfg.docking_weight = some 0) →
      (scoring_weights cfg).1 = 0.4) ∧
    ((cfg.energy_weight = none ∨ cfg.energy_weight = some 0) →
      (scoring_weights cfg).2.1 = 0.4) ∧
    ((cfg.optional_weight = none ∨ cfg.optional_weight = some 0) →
      (scoring_weights cfg).2.2 = 0.2) ∧
    (∀ v : ℚ, v ≠ 0 → cfg.docking_weight = some v → (scoring_weights cfg).1 = v) ∧
    (∀ v : ℚ, v ≠ 0 → cfg.energy_weight = some v → (scoring_weights cfg).2.1 = v) ∧
    (∀ v : ℚ, v ≠ 0 → cfg.optional_weight = some v → (scoring_weights cfg).2.2 = v) ∧
    (scoring_weights cfg).1 ≠ 0 ∧ (scoring_weights cfg).2.1 ≠ 0 ∧
    (scoring_weights cfg).2.2 ≠ 0 := by
  refine ⟨fun h => ?_, fun h => ?_, fun h => ?_,
    fun v hv h => ?_, fun v hv h => ?_, fun v hv h => ?_, ?_, ?_, ?_⟩
  · exact (config_weight_or_cases cfg.docking_weight 0.4).1 h
  · exact (config_weight_or_cases cfg.energy_weight 0.4).1 h
  · exact (config_weight_or_cases cfg.optional_weight 0.2).1 h
  · exact (config_weight_or_cases cfg.docking_weight 0.4).2.1 v hv h
  · exact (config_weight_or_cases cfg.energy_weight 0.4).2.1 v hv h
  · exact (config_weight_or_cases cfg.optional_weight 0.2).2.1 v hv h
  · exact (config_weight_or_cases cfg.docking_weight 0.4).2.2 (by norm_num)
  · exact (config_weight_or_cases cfg.energy_weight 0.4).2.2 (by norm_num)
  · exact (config_weight_or_cases cfg.optional_weight 0.2).2.2 (by norm_num)

/-- Witness for config_weight_fallback (C9): a configuration with the
docking weight set to 0.0, the energy weight unset and the optional
weight set to 0.5 resolves to (0.4, 0.4, 0.5). -/
theorem config_weight_fallback_witness :
    (scoring_weights ⟨some 0, none, some (1/2)⟩).1 = 0.4 ∧
    (scoring_weights ⟨some 0, none, some (1/2)⟩).2.1 = 0.4 ∧
    (scoring_weights ⟨some 0, none, some (1/2)⟩).2.2 = 1/2 := by
  have h := config_weight_fallback ⟨some 0, none, some (1/2)⟩
  exact ⟨h.1 (Or.inr rfl), h.2.1 (Or.inl rfl),
    h.2.2.2.2.2.1 (1/2) (by norm_num) rfl⟩

/-- Conformation identity of a row. -/
def conf_id (r : Row) : Int × Int := (r.title, r.lignum)

/-- Keep-first deduplication: the order in which a Python dict first saw
each key. -/
def first_dedup {α : Type} [DecidableEq α] (l : List α) : List α :=
  l.foldl (fun acc x => if x ∈ acc then acc else acc ++ [x]) []

/-- The score of the last row of `df` bearing identity `c` and protein
`p` (the surviving candidate after dict overwrites). -/
def last_row_score (cfg : ScoringConfig) (selected_metrics : List String)
    (weights : List (String × ℚ)) (df : List Row) (c : Int × Int)
    (p : String) : ScoreTriple :=
  match (df.filter (fun r => conf_id r = c ∧ r.protein = p)).getLast? with
  | some r => score_row cfg selected_metrics weights r
  | none => default_pair.2

/-- The candidate list the scorer actually builds for identity `c`: one
candidate per protein, in order of each protein's first row for `c`,
carrying the score of that protein's last row for `c`. -/
def spec_candidates (cfg : ScoringConfig) (selected_metrics : List String)
    (weights : List (String × ℚ)) (df : List Row) (c : Int × Int) :
    List (String × ScoreTriple) :=
  (first_dedup ((df.filter (fun r => conf_id r = c)).map Row.protein)).map
    (fun p => (p, last_row_score cfg selected_metrics weights df c p))

/-- Strict order on non-NaN score values. -/
def optLt (a b : Option ℚ) : Prop := ∃ x y, a = some x ∧ b = some y ∧ x < y

/-- Non-strict order on non-NaN score values. -/
def optLe (a b : Option ℚ) : Prop := ∃ x y, a = some x ∧ b = some y ∧ x ≤ y

/-- C3 counterexample: two rows with the same identity (1, 1) and the
same protein A, the earlier scoring 0 and the later scoring 1.  The
emitted entry carries total score 1, the score of the later row, not
the minimum 0 over all rows bearing the identity: the per-identity dict
is keyed by protein, so the later duplicate overwrites the earlier one. -/
theorem conformation_min_counterexample :
    ((rank_conformations ⟨none, none, none⟩
      [⟨1, 1, "A", [("normalized_r_i_docking_score", some 0),
                    ("normalized_r_i_glide_gscore", some 0),
                    ("normalized_r_i_glide_emodel", some 0),
                    ("normalized_r_i_glide_energy", some 0)]⟩,
       ⟨1, 1, "A", [("normalized_r_i_docking_score", some 1),
                    ("normalized_r_i_glide_gscore", some 1),
                    ("normalized_r_i_glide_emodel", some 1),
                    ("normalized_r_i_glide_energy", some 1)]⟩] [] []).map
      (fun e => e.total_score) = [some 1]) ∧
    (score_row ⟨none, none, none⟩ [] []
      ⟨1, 1, "A", [("normalized_r_i_docking_score", some 0),
                   ("normalized_r_i_glide_gscore", some 0),
                   ("normalized_r_i_glide_emodel", some 0),
                   ("normalized_r_i_glide_energy", some 0)]⟩).total_score = some 0 ∧
    (1 : ℚ) ≠ 0 := by
  refine ⟨?_, ?_, by norm_num⟩
  · simp [rank_conformations, score_conformation_protein_pairs, upsert_conf,
      upsert_protein, min_by_total, score_row, scoring_weights, config_weight_or,
      calculate_composite_score, calculate_docking_score, calculate_energy_score,
      calculate_optional_score, calculate_weighted_score, OPTIONAL_METRICS,
      DOCKING_METRICS, ENERGY_METRICS, get_normalized_value,
      get_normalized_column_name, weight_of, nadd, nmul, nlt, List.lookup]
    norm_num
  · simp [score_row, scoring_weights, config_weight_or,
      calculate_composite_score, calculate_docking_score, calculate_energy_score,
      calculate_optional_score, calculate_weighted_score, OPTIONAL_METRICS,
      DOCKING_METRICS, ENERGY_METRICS, get_normalized_value,
      get_normalized_column_name, weight_of, nadd, nmul, List.lookup]

theorem mem_first_dedup_aux {α : Type} [DecidableEq α] :
    ∀ (l : List α) (acc : List α) (y : α),
      y ∈ l.foldl (fun acc x => if x ∈ acc then acc else acc ++ [x]) acc ↔
        y ∈ acc ∨ y ∈ l := by
  intro l
  induction l with
  | nil => intro acc y; simp
  | cons x l ih =>
    intro acc y
    rw [List.foldl_cons]
    by_cases hx : x ∈ acc
    · rw [if_pos hx, ih]
      constructor
      · rintro (h | h)
        · exact Or.inl h
        · exact Or.inr (by simp [h])
      · rintro (h | h)
        · exact Or.inl h
        · rcases List.mem_cons.mp h with rfl | h
          · exact Or.inl hx
          · exact Or.inr h
    · rw [if_neg hx, ih]
      constructor
      · rintro (h | h)
        · rcases List.mem_append.mp h with h | h
          · exact Or.inl h
          · simp at h
            simp [h]
        · exact Or.inr (by simp [h])
      · rintro (h | h)
        · exact Or.inl (by simp [h])
        · rcases List.mem_cons.mp h with rfl | h
          · exact Or.inl (by simp)
          · exact Or.inr h

/-- Membership in the keep-first deduplication. -/
theorem mem_first_dedup {α : Type} [DecidableEq α] (l : List α) (y : α) :
    y ∈ first_dedup l ↔ y ∈ l := by
  unfold first_dedup
  rw [mem_first_dedup_aux]
  simp

theorem nodup_first_dedup_aux {α : Type} [DecidableEq α] :
    ∀ (l : List α) (acc : List α), acc.Nodup →
      (l.foldl (fun acc x => if x ∈ acc then acc else acc ++ [x]) acc).Nodup := by
  intro l
  induction l with
  | nil => intro acc h; simpa using h
  | cons x l ih =>
    intro acc h
    rw [List.foldl_cons]
    by_cases hx : x ∈ acc
    · rw [if_pos hx]; exact ih acc h
    · rw [if_neg hx]
      exact ih (acc ++ [x]) (by simp [List.nodup_append, h, hx])

/-- The keep-first deduplication has no duplicate keys. -/
theorem nodup_first_dedup {α : Type} [DecidableEq α] (l : List α) :
    (first_dedup l).Nodup :=
  nodup_first_dedup_aux l [] List.nodup_nil

/-- Appending one element to the input of the keep-first deduplication. -/
theorem first_dedup_concat {α : Type} [DecidableEq α] (l : List α) (x : α) :
    first_dedup (l ++ [x]) =
      if x ∈ first_dedup l then first_dedup l else first_dedup l ++ [x] := by
  unfold first_dedup
  rw [List.foldl_append]
  rfl

/-- A dict update on an association list whose entries are generated by
a function on duplicate-free keys: the key list gains `p` if absent, and
the generating function changes only at `p`. -/
theorem upsert_protein_map (L : List String) (f : String → ScoreTriple)
    (p : String) (v : ScoreTriple) (hnd : L.Nodup) :
    upsert_protein (L.map (fun q => (q, f q))) p v =
      (if p ∈ L then L else L ++ [p]).map
        (fun q => (q, if q = p then v else f q)) := by
  induction L with
  | nil => simp [upsert_protein]
  | cons q L ih =>
    rw [List.nodup_cons] at hnd
    obtain ⟨hq, hnd⟩ := hnd
    by_cases hqp : q = p
    · subst hqp
      simp only [List.map_cons, upsert_protein, if_pos rfl, List.mem_cons,
        true_or, if_true]
      congr 1
      apply List.map_congr_left
      intro a ha
      have : a ≠ q := fun h => hq (h ▸ ha)
      simp [this]
    · simp only [List.map_cons, upsert_protein, if_neg hqp, ih hnd]
      by_cases hp : p ∈ L
      · simp [List.mem_cons, hp, Ne.symm hqp, hqp]
      · have : ¬ p ∈ q :: L := by simp [hp, Ne.symm hqp]
        simp [hp, this, hqp]

/-- Looking up a conformation key after a nested dict update. -/
theorem lookup_upsert_conf
    (l : List ((Int × Int) × List (String × ScoreTriple)))
    (c0 c : Int × Int) (p : String) (v : ScoreTriple) :
    (upsert_conf l c0 p v).lookup c =
      if c0 = c then
        (match l.lookup c0 with
         | none => some [(p, v)]
         | some ps => some (upsert_protein ps p v))
      else l.lookup c := by
  induction l with
  | nil =>
    by_cases hc : c0 = c
    · subst hc; simp [upsert_conf, List.lookup]
    · have hbeq : (c == c0) = false := by simpa using Ne.symm hc
      simp [upsert_conf, List.lookup, hc, hbeq]
  | cons a l ih =>
    obtain ⟨c1, ps⟩ := a
    by_cases h10 : c1 = c0
    · subst h10
      by_cases h1c : c1 = c
      · subst h1c
        simp [upsert_conf, List.lookup]
      · simp [upsert_conf, List.lookup, h1c,
          (by simpa using Ne.symm h1c : ¬ (c == c1) = true)]
    · by_cases h1c : c1 = c
      · subst h1c
        have hc : ¬ c0 = c1 := Ne.symm h10
        simp [upsert_conf, List.lookup, h10, hc]
      · have hb1 : (c == c1) = false := by simpa using Ne.symm h1c
        have hb2 : (c0 == c1) = false := by simpa using Ne.symm h10
        simp [upsert_conf, List.lookup, h10, h1c, hb1, hb2, ih]

/-- Nested dict update on a key not yet present. -/
theorem lookup_upsert_conf_none
    (l : List ((Int × Int) × List (String × ScoreTriple)))
    (c0 c : Int × Int) (p : String) (v : ScoreTriple)
    (h : l.lookup c0 = none) :
    (upsert_conf l c0 p v).lookup c =
      if c0 = c then some [(p, v)] else l.lookup c := by
  rw [lookup_upsert_conf, h]

/-- Nested dict update on a key already present. -/
theorem lookup_upsert_conf_some
    (l : List ((Int × Int) × List (String × ScoreTriple)))
    (c0 c : Int × Int) (p : String) (v : ScoreTriple)
    (ps : List (String × ScoreTriple)) (h : l.lookup c0 = some ps) :
    (upsert_conf l c0 p v).lookup c =
      if c0 = c then some (upsert_protein ps p v) else l.lookup c := by
  rw [lookup_upsert_conf, h]

/-- Appending a row to the input of the pair scorer performs one nested
dict update. -/
theorem score_pairs_concat (cfg : ScoringConfig) (sel : List String)
    (w : List (String × ℚ)) (df : List Row) (r : Row) :
    score_conformation_protein_pairs cfg (df ++ [r]) sel w =
      upsert_conf (score_conformation_protein_pairs cfg df sel w)
        (r.title, r.lignum) r.protein (score_row cfg sel w r) := by
  unfold score_conformation_protein_pairs
  rw [List.foldl_append]
  rfl

/-- If no row of `df` bears identity `c`, no row bears identity `c` and
protein `p`. -/
theorem filter_conj_nil (df : List Row) (c : Int × Int) (p : String)
    (h : df.filter (fun r => conf_id r = c) = []) :
    df.filter (fun r => conf_id r = c ∧ r.protein = p) = [] := by
  rw [List.filter_eq_nil_iff] at h ⊢
  intro a ha
  have := h a ha
  simp only [decide_eq_true_eq] at this ⊢
  exact fun hc => this hc.1

/-- The candidate list the scorer builds for each identity is exactly
the spec-side candidate list: keyed by protein in first-occurrence
order, valued by the last row of that protein for the identity. -/
theorem score_pairs_lookup (cfg : ScoringConfig) (sel : List String)
    (w : List (String × ℚ)) :
    ∀ (df : List Row) (c : Int × Int),
      (score_conformation_protein_pairs cfg df sel w).lookup c =
        if df.filter (fun r => conf_id r = c) = [] then none
        else some (spec_candidates cfg sel w df c) := by
  intro df
  induction df using List.reverseRecOn with
  | nil =>
    intro c
    simp [score_conformation_protein_pairs, List.lookup]
  | append_singleton df r ih =>
    intro c
    rw [score_pairs_concat]
    have hlook := ih (r.title, r.lignum)
    by_cases hc : (r.title, r.lignum) = c
    · subst hc
      by_cases h0 : df.filter (fun r2 => conf_id r2 = (r.title, r.lignum)) = []
      · rw [if_pos h0] at hlook
        rw [lookup_upsert_conf_none _ _ _ _ _ hlook, if_pos rfl]
        have hfil : (df ++ [r]).filter (fun r2 => conf_id r2 = (r.title, r.lignum)) = [r] := by
          rw [List.filter_append, h0]
          simp [conf_id]
        rw [if_neg (by simp [hfil])]
        unfold spec_candidates
        rw [hfil]
        have hlast : last_row_score cfg sel w (df ++ [r]) (r.title, r.lignum) r.protein
            = score_row cfg sel w r := by
          unfold last_row_score
          rw [List.filter_append, filter_conj_nil df _ _ h0]
          simp [conf_id]
        simp [first_dedup, hlast]
      · rw [if_neg h0] at hlook
        rw [lookup_upsert_conf_some _ _ _ _ _ _ hlook, if_pos rfl]
        have hfil : (df ++ [r]).filter (fun r2 => conf_id r2 = (r.title, r.lignum)) =
            df.filter (fun r2 => conf_id r2 = (r.title, r.lignum)) ++ [r] := by
          rw [List.filter_append]
          simp [conf_id]
        rw [if_neg (by simp [hfil])]
        congr 1
        unfold spec_candidates
        rw [hfil, List.map_append, List.map_singleton, first_dedup_concat]
        rw [upsert_protein_map _ _ _ _
          (nodup_first_dedup ((df.filter (fun r2 => conf_id r2 = (r.title, r.lignum))).map Row.protein))]
        apply List.map_congr_left
        intro q hq
        by_cases hqp : q = r.protein
        · have hlast : last_row_score cfg sel w (df ++ [r]) (r.title, r.lignum) r.protein
              = score_row cfg sel w r := by
            unfold last_row_score
            rw [List.filter_append]
            have hone : [r].filter
                (fun r2 => conf_id r2 = (r.title, r.lignum) ∧ r2.protein = r.protein) = [r] := by
              simp [conf_id]
            rw [hone, List.getLast?_concat]
          simp [hqp, hlast]
        · have hlast : last_row_score cfg sel w (df ++ [r]) (r.title, r.lignum) q
              = last_row_score cfg sel w df (r.title, r.lignum) q := by
            unfold last_row_score
            rw [List.filter_append]
            have : [r].filter (fun r2 => conf_id r2 = (r.title, r.lignum) ∧ r2.protein = q) = [] := by
              simp [conf_id]
              intro h
              exact hqp h.symm
            rw [this, List.append_nil]
          simp [hqp, hlast]
    · rw [lookup_upsert_conf, if_neg hc, ih c]
      have hfil : (df ++ [r]).filter (fun r2 => conf_id r2 = c) =
          df.filter (fun r2 => conf_id r2 = c) := by
        rw [List.filter_append]
        have : [r].filter (fun r2 => conf_id r2 = c) = [] := by
          simp [conf_id, hc]
        rw [this, List.append_nil]
      by_cases h0 : df.filter (fun r2 => conf_id r2 = c) = []
      · rw [if_pos h0, if_pos (by rw [hfil]; exact h0)]
      · rw [if_neg h0, if_neg (by rw [hfil]; exact h0)]
        congr 1
        unfold spec_candidates
        rw [hfil]
        apply List.map_congr_left
        intro q hq
        have hlast : last_row_score cfg sel w (df ++ [r]) c q
            = last_row_score cfg sel w df c q := by
          unfold last_row_score
          rw [List.filter_append]
          have : [r].filter (fun r2 => conf_id r2 = c ∧ r2.protein = q) = [] := by
            simp [conf_id]
            intro h
            exact absurd h hc
          rw [this, List.append_nil]
        rw [hlast]

theorem optLe_of_optLt {a b : Option ℚ} (h : optLt a b) : optLe a b := by
  obtain ⟨x, y, hx, hy, hxy⟩ := h
  exact ⟨x, y, hx, hy, le_of_lt hxy⟩

theorem optLt_of_optLe_of_lt {a : Option ℚ} {y x : ℚ}
    (h : optLe a (some y)) (hyx : y < x) : optLt a (some x) := by
  obtain ⟨u, v, hu, hv, huv⟩ := h
  injection hv with hv
  subst hv
  exact ⟨u, x, hu, rfl, lt_of_le_of_lt huv hyx⟩

theorem optLe_of_optLe_of_le {a : Option ℚ} {y x : ℚ}
    (h : optLe a (some y)) (hyx : y ≤ x) : optLe a (some x) := by
  obtain ⟨u, v, hu, hv, huv⟩ := h
  injection hv with hv
  subst hv
  exact ⟨u, x, hu, rfl, le_trans huv hyx⟩

theorem optLt_of_optLt_of_le {a : Option ℚ} {y x : ℚ}
    (h : optLt a (some y)) (hyx : y ≤ x) : optLt a (some x) := by
  obtain ⟨u, v, hu, hv, huv⟩ := h
  injection hv with hv
  subst hv
  exact ⟨u, x, hu, rfl, lt_of_lt_of_le huv hyx⟩

theorem nlt_some_iff {x y : ℚ} : nlt (some x) (some y) = true ↔ x < y := by
  simp [nlt]

/-- Collapsing the first comparison of the Python min fold. -/
theorem min_by_total_cons₂ (x y : String × ScoreTriple)
    (t : List (String × ScoreTriple)) :
    min_by_total (x :: y :: t) =
      min_by_total ((if nlt y.2.total_score x.2.total_score then y else x) :: t) := by
  simp [min_by_total, List.foldl_cons]

/-- The Python `min(..., key=total_score)` over non-NaN totals returns a
candidate that splits the list into a strictly-worse prefix and a
suffix, and is a lower bound of the whole list: the first minimum wins. -/
theorem min_by_total_spec :
    ∀ (xs : List (String × ScoreTriple)) (x : String × ScoreTriple),
      (∀ q ∈ x :: xs, (q.2.total_score).isSome) →
      ∃ L1 L2,
        x :: xs = L1 ++ min_by_total (x :: xs) :: L2 ∧
        (∀ q ∈ L1, optLt ((min_by_total (x :: xs)).2.total_score) q.2.total_score) ∧
        (∀ q ∈ x :: xs, optLe ((min_by_total (x :: xs)).2.total_score) q.2.total_score) := by
  intro xs
  induction xs with
  | nil =>
    intro x hs
    obtain ⟨xv, hx⟩ := Option.isSome_iff_exists.mp (hs x (by simp))
    refine ⟨[], [], by simp [min_by_total], by simp, ?_⟩
    intro q hq
    simp only [List.mem_singleton] at hq
    subst hq
    exact ⟨xv, xv, by simpa [min_by_total] using hx, hx, le_refl _⟩
  | cons y t ih =>
    intro x hs
    obtain ⟨xv, hx⟩ := Option.isSome_iff_exists.mp (hs x (by simp))
    obtain ⟨yv, hy⟩ := Option.isSome_iff_exists.mp (hs y (by simp))
    by_cases hp : nlt y.2.total_score x.2.total_score = true
    · have hyx : yv < xv := by
        rw [hx, hy, nlt_some_iff] at hp
        exact hp
      have hpick : (if nlt y.2.total_score x.2.total_score then y else x) = y := if_pos hp
      obtain ⟨L1, L2, hsplit, hstrict, hmin⟩ :=
        ih y (fun q hq => hs q (List.mem_cons_of_mem x hq))
      rw [min_by_total_cons₂, hpick]
      refine ⟨x :: L1, L2, by simpa using hsplit, ?_, ?_⟩
      · intro q hq
        rcases List.mem_cons.mp hq with rfl | hq
        · rw [hx]
          exact optLt_of_optLe_of_lt (by simpa [hy] using hmin y (by simp)) hyx
        · exact hstrict q hq
      · intro q hq
        rcases List.mem_cons.mp hq with rfl | hq
        · rw [hx]
          exact optLe_of_optLt
            (optLt_of_optLe_of_lt (by simpa [hy] using hmin y (by simp)) hyx)
        · exact hmin q hq
    · have hxy : xv ≤ yv := by
        rw [hx, hy, nlt_some_iff] at hp
        exact le_of_not_lt hp
      have hpick : (if nlt y.2.total_score x.2.total_score then y else x) = x := if_neg hp
      obtain ⟨L1, L2, hsplit, hstrict, hmin⟩ :=
        ih x (fun q hq => by
          rcases List.mem_cons.mp hq with rfl | hq
          · exact hs q (by simp)
          · exact hs q (List.mem_cons_of_mem _ (List.mem_cons_of_mem _ hq)))
      rw [min_by_total_cons₂, hpick]
      cases L1 with
      | nil =>
        simp only [List.nil_append] at hsplit
        have hb : min_by_total (x :: t) = x := ((List.cons.injEq _ _ _ _).mp hsplit).1.symm
        have ht : t = L2 := ((List.cons.injEq _ _ _ _).mp hsplit).2
        refine ⟨[], y :: L2, by rw [List.nil_append, hb, ht], by simp, ?_⟩
        intro q hq
        rcases List.mem_cons.mp hq with rfl | hq
        · exact ⟨xv, xv, by rw [hb]; exact hx, hx, le_refl _⟩
        · rcases List.mem_cons.mp hq with rfl | hq
          · rw [hy]
            exact optLe_of_optLe_of_le ⟨xv, xv, by rw [hb]; exact hx, rfl, le_refl _⟩ hxy
          · exact hmin q (List.mem_cons_of_mem _ hq)
      | cons x0 L1t =>
        simp only [List.cons_append] at hsplit
        have hx0 : x = x0 := ((List.cons.injEq _ _ _ _).mp hsplit).1
        have ht : t = L1t ++ min_by_total (x :: t) :: L2 :=
          ((List.cons.injEq _ _ _ _).mp hsplit).2
        have hbx : optLt ((min_by_total (x :: t)).2.total_score) x.2.total_score := by
          have := hstrict x0 (by simp)
          rwa [← hx0] at this
        refine ⟨x :: y :: L1t, L2, by rw [List.cons_append, List.cons_append, ← ht], ?_, ?_⟩
        · intro q hq
          rcases List.mem_cons.mp hq with rfl | hq
          · exact hbx
          · rcases List.mem_cons.mp hq with rfl | hq
            · rw [hy]
              exact optLt_of_optLt_of_le (by rw [← hx]; exact hbx) hxy
            · exact hstrict q (List.mem_cons_of_mem _ hq)
        · intro q hq
          rcases List.mem_cons.mp hq with rfl | hq
          · exact hmin q (by simp)
          · rcases List.mem_cons.mp hq with rfl | hq
            · rw [hy]
              exact optLe_of_optLe_of_le (by rw [← hx]; exact optLe_of_optLt hbx) hxy
            · exact hmin q (List.mem_cons_of_mem _ hq)

/-- Every candidate the scorer keeps for identity `c` carries the score
of some input row. -/
theorem spec_candidates_isSome (cfg : ScoringConfig) (sel : List String)
    (w : List (String × ℚ)) (df : List Row) (c : Int × Int)
    (hs : ∀ r ∈ df, ((score_row cfg sel w r).total_score).isSome) :
    ∀ q ∈ spec_candidates cfg sel w df c, (q.2.total_score).isSome := by
  intro q hq
  unfold spec_candidates at hq
  obtain ⟨p, hp, rfl⟩ := List.mem_map.mp hq
  rw [mem_first_dedup] at hp
  obtain ⟨r0, hr0, hrp⟩ := List.mem_map.mp hp
  have hr0f := List.mem_filter.mp hr0
  have hne2 : df.filter (fun r2 => conf_id r2 = c ∧ r2.protein = p) ≠ [] := by
    intro hnil
    rw [List.filter_eq_nil_iff] at hnil
    have := hnil r0 hr0f.1
    simp only [decide_eq_true_eq] at this
    exact this ⟨by simpa using hr0f.2, hrp⟩
  unfold last_row_score
  cases hlast : (df.filter (fun r2 => conf_id r2 = c ∧ r2.protein = p)).getLast? with
  | none => exact absurd (List.getLast?_eq_none_iff.mp hlast) hne2
  | some r2 =>
    have hr2 : r2 ∈ df :=
      (List.mem_filter.mp (List.mem_of_getLast?_eq_some hlast)).1
    simpa using hs r2 hr2

/-- C3 (amended): for every identity with at least one row and non-NaN
row scores, the emitted Conformation Ranking Entry carries the minimum
total score over the surviving candidates — one candidate per protein,
namely the last-encountered row of that (identity, protein) pair, since
the per-identity dict is keyed by protein and a duplicate row for the
same protein overwrites the earlier one rather than counting as an
additional candidate — and under exact total-score ties the candidate
of the protein first encountered for that identity wins.  (As stated
the claim fails: the minimum is not taken over all rows bearing the
identity when duplicates of the same (identity, protein) pair occur.) -/
theorem conformation_entry_spec (cfg : ScoringConfig) (sel : List String)
    (w : List (String × ℚ)) (df : List Row) (c : Int × Int)
    (hne : df.filter (fun r => conf_id r = c) ≠ [])
    (hs : ∀ r ∈ df, ((score_row cfg sel w r).total_score).isSome) :
    ∃ e ∈ rank_conformations cfg df sel w,
      (e.title, e.lignum) = c ∧
      ∃ L1 L2 t,
        spec_candidates cfg sel w df c = L1 ++ (e.best_protein, t) :: L2 ∧
        e.total_score = t.total_score ∧
        (∀ q ∈ L1, optLt e.total_score q.2.total_score) ∧
        (∀ q ∈ spec_candidates cfg sel w df c, optLe e.total_score q.2.total_score) := by
  have hlook := score_pairs_lookup cfg sel w df c
  rw [if_neg hne] at hlook
  have hmem : (c, spec_candidates cfg sel w df c) ∈
      score_conformation_protein_pairs cfg df sel w := lookup_mem hlook
  have hall := spec_candidates_isSome cfg sel w df c hs
  obtain ⟨x, xs, hxs⟩ : ∃ x xs, spec_candidates cfg sel w df c = x :: xs := by
    cases hsc : spec_candidates cfg sel w df c with
    | nil =>
      obtain ⟨r0, hr0⟩ := List.exists_mem_of_ne_nil _ hne
      have hp : r0.protein ∈
          first_dedup ((df.filter (fun r => conf_id r = c)).map Row.protein) := by
        rw [mem_first_dedup]
        exact List.mem_map.mpr ⟨r0, hr0, rfl⟩
      have : (r0.protein, last_row_score cfg sel w df c r0.protein) ∈
          spec_candidates cfg sel w df c :=
        List.mem_map.mpr ⟨r0.protein, hp, rfl⟩
      rw [hsc] at this
      exact absurd this (List.not_mem_nil _)
    | cons x xs => exact ⟨x, xs, rfl⟩
  rw [hxs] at hall
  obtain ⟨L1, L2, hsplit, hstrict, hmin⟩ := min_by_total_spec xs x hall
  refine ⟨⟨c.1, c.2, (min_by_total (x :: xs)).2.total_score,
    (min_by_total (x :: xs)).2.docking_score,
    (min_by_total (x :: xs)).2.energy_score,
    (min_by_total (x :: xs)).1, (min_by_total (x :: xs)).2.raw_data⟩, ?_, ?_, ?_⟩
  · unfold rank_conformations
    rw [List.mem_mergeSort]
    apply List.mem_map.mpr
    refine ⟨(c, spec_candidates cfg sel w df c), hmem, ?_⟩
    rw [hxs]
  · rfl
  · refine ⟨L1, L2, (min_by_total (x :: xs)).2, ?_, rfl, ?_, ?_⟩
    · rw [hxs]
      exact hsplit
    · intro q hq
      exact hstrict q hq
    · intro q hq
      rw [hxs] at hq
      exact hmin q hq

/-- Witness for conformation_entry_spec (C3 amended) at a concrete
two-protein input for identity (1, 1). -/
theorem conformation_entry_spec_witness :
    ∃ e ∈ rank_conformations ⟨none, none, none⟩
      [⟨1, 1, "A", [("normalized_r_i_docking_score", some (1/2))]⟩,
       ⟨1, 1, "B", [("normalized_r_i_docking_score", some 0)]⟩] [] [],
      (e.title, e.lignum) = ((1 : Int), (1 : Int)) ∧
      ∃ L1 L2 t,
        spec_candidates ⟨none, none, none⟩ [] []
          [⟨1, 1, "A", [("normalized_r_i_docking_score", some (1/2))]⟩,
           ⟨1, 1, "B", [("normalized_r_i_docking_score", some 0)]⟩] ((1 : Int), (1 : Int))
          = L1 ++ (e.best_protein, t) :: L2 ∧
        e.total_score = t.total_score ∧
        (∀ q ∈ L1, optLt e.total_score q.2.total_score) ∧
        (∀ q ∈ spec_candidates ⟨none, none, none⟩ [] []
          [⟨1, 1, "A", [("normalized_r_i_docking_score", some (1/2))]⟩,
           ⟨1, 1, "B", [("normalized_r_i_docking_score", some 0)]⟩] ((1 : Int), (1 : Int)),
          optLe e.total_score q.2.total_score) :=
  conformation_entry_spec ⟨none, none, none⟩ [] []
    [⟨1, 1, "A", [("normalized_r_i_docking_score", some (1/2))]⟩,
     ⟨1, 1, "B", [("normalized_r_i_docking_score", some 0)]⟩] ((1 : Int), (1 : Int))
    (by simp [conf_id])
    (by
      intro r hr
      rcases List.mem_cons.mp hr with rfl | hr
      · simp [score_row, scoring_weights, config_weight_or,
          calculate_composite_score, calculate_docking_score, calculate_energy_score,
          calculate_optional_score, calculate_weighted_score, OPTIONAL_METRICS,
          DOCKING_METRICS, ENERGY_METRICS, get_normalized_value,
          get_normalized_column_name, weight_of, nadd, nmul, List.lookup]
      · rcases List.mem_cons.mp hr with rfl | hr
        · simp [score_row, scoring_weights, config_weight_or,
            calculate_composite_score, calculate_docking_score, calculate_energy_score,
            calculate_optional_score, calculate_weighted_score, OPTIONAL_METRICS,
            DOCKING_METRICS, ENERGY_METRICS, get_normalized_value,
            get_normalized_column_name, weight_of, nadd, nmul, List.lookup]
        · exact absurd hr (List.not_mem_nil r))

/-- Per-protein accumulation state of Ranker.rank_proteins. -/
structure ProteinStats where
  best_count : Nat
  total_scores : List (Option ℚ)
  docking_scores : List (Option ℚ)
  energy_scores : List (Option ℚ)
deriving DecidableEq

/-- One pass of the rank_proteins statistics loop: bump the winning
protein's count and append its scores (insertion-ordered dict). -/
def stats_update (l : List (String × ProteinStats)) (e : ConfEntry) :
    List (String × ProteinStats) :=
  match l with
  | [] => [(e.best_protein, ⟨1, [e.total_score], [e.docking_score], [e.energy_score]⟩)]
  | (q, s) :: rest =>
    if q = e.best_protein then
      (q, ⟨s.best_count + 1, s.total_scores ++ [e.total_score],
           s.docking_scores ++ [e.docking_score],
           s.energy_scores ++ [e.energy_score]⟩) :: rest
    else (q, s) :: stats_update rest e

/-- The statistics dict built by Ranker.rank_proteins from the
conformation ranking entries. -/
def protein_stats (entries : List ConfEntry) : List (String × ProteinStats) :=
  entries.foldl stats_update []

/-- Sequencing of NaN-able values: NaN if any entry is NaN. -/
def seqOpt : List (Option ℚ) → Option (List ℚ)
  | [] => some []
  | none :: _ => none
  | some x :: l => (seqOpt l).map (fun xs => x :: xs)

/-- numpy mean of a Python list of floats: NaN if any entry is NaN,
otherwise the arithmetic mean. -/
def nmean (l : List (Option ℚ)) : Option ℚ :=
  (seqOpt l).map (fun xs => xs.sum / (xs.length : ℚ))

/-- One Protein Ranking Entry. -/
structure ProteinEntry where
  protein_name : String
  best_count : Nat
  avg_total_score : Option ℚ
  avg_docking_score : Option ℚ
  avg_energy_score : Option ℚ
deriving DecidableEq

/-- The unsorted protein result list, in first-seen winner order. -/
def protein_result (entries : List ConfEntry) : List ProteinEntry :=
  (protein_stats entries).map (fun ps =>
    ⟨ps.1, ps.2.best_count, nmean ps.2.total_scores,
     nmean ps.2.docking_scores, nmean ps.2.energy_scores⟩)

/-- The comparator of the Python key sort
`sort(key=lambda x: (-best_count, avg_total_score))`: descending count,
then ascending mean total.  NaN averages make the Python sort order
unspecified; the embedding totalizes the comparator with `getD 0` and
the theorems below only cover NaN-free inputs. -/
def pLE (a b : ProteinEntry) : Bool :=
  b.best_count < a.best_count ||
    (a.best_count == b.best_count &&
      decide (a.avg_total_score.getD 0 ≤ b.avg_total_score.getD 0))

/-- Ranker.rank_proteins: empty guard, statistics, means, stable
two-key sort (Python list.sort is stable; on NaN-free keys mergeSort
with the same comparator produces the same list). -/
def rank_proteins (entries : List ConfEntry) : List ProteinEntry :=
  if entries = [] then [] else (protein_result entries).mergeSort pLE

theorem stats_update_keys (l : List (String × ProteinStats)) (e : ConfEntry) :
    (stats_update l e).map Prod.fst =
      if e.best_protein ∈ l.map Prod.fst then l.map Prod.fst
      else l.map Prod.fst ++ [e.best_protein] := by
  induction l with
  | nil => simp [stats_update]
  | cons a rest ih =>
    obtain ⟨q, s⟩ := a
    by_cases hq : q = e.best_protein
    · subst hq
      simp [stats_update]
    · simp only [stats_update, if_neg hq, List.map_cons, ih]
      have : ¬ e.best_protein = q := fun h => hq h.symm
      by_cases hmem : e.best_protein ∈ rest.map Prod.fst
      · simp [hmem, this]
      · simp [hmem, this]

theorem stats_update_count_sum (l : List (String × ProteinStats)) (e : ConfEntry) :
    ((stats_update l e).map (fun p => p.2.best_count)).sum =
      (l.map (fun p => p.2.best_count)).sum + 1 := by
  induction l with
  | nil => simp [stats_update]
  | cons a rest ih =>
    obtain ⟨q, s⟩ := a
    by_cases hq : q = e.best_protein
    · subst hq
      simp [stats_update]
      omega
    · simp [stats_update, if_neg hq, ih]
      omega

theorem stats_update_values (l : List (String × ProteinStats)) (e : ConfEntry)
    (hl : ∀ p ∈ l, p.2.total_scores ≠ [] ∧ ∀ v ∈ p.2.total_scores, v.isSome)
    (he : (e.total_score).isSome) :
    ∀ p ∈ stats_update l e,
      p.2.total_scores ≠ [] ∧ ∀ v ∈ p.2.total_scores, v.isSome := by
  induction l with
  | nil =>
    intro p hp
    simp only [stats_update, List.mem_singleton] at hp
    subst hp
    exact ⟨by simp, by intro v hv; simp at hv; subst hv; exact he⟩
  | cons a rest ih =>
    obtain ⟨q, s⟩ := a
    by_cases hq : q = e.best_protein
    · intro p hp
      simp only [stats_update, if_pos hq, List.mem_cons] at hp
      rcases hp with rfl | hp
      · obtain ⟨h1, h2⟩ := hl (q, s) (by simp)
        refine ⟨by simp, ?_⟩
        intro v hv
        rcases List.mem_append.mp hv with hv | hv
        · exact h2 v hv
        · simp at hv; subst hv; exact he
      · exact hl p (List.mem_cons_of_mem _ hp)
    · intro p hp
      simp only [stats_update, if_neg hq, List.mem_cons] at hp
      rcases hp with rfl | hp
      · exact hl (q, s) (by simp)
      · exact ih (fun p2 hp2 => hl p2 (List.mem_cons_of_mem _ hp2)) p hp

theorem protein_stats_keys :
    ∀ (entries : List ConfEntry) (acc : List (String × ProteinStats)),
      (entries.foldl stats_update acc).map Prod.fst =
        (entries.map ConfEntry.best_protein).foldl
          (fun ks p => if p ∈ ks then ks else ks ++ [p]) (acc.map Prod.fst) := by
  intro entries
  induction entries with
  | nil => intro acc; simp
  | cons e entries ih =>
    intro acc
    rw [List.foldl_cons, List.map_cons, List.foldl_cons, ih, stats_update_keys]

theorem protein_stats_count_sum :
    ∀ (entries : List ConfEntry) (acc : List (String × ProteinStats)),
      ((entries.foldl stats_update acc).map (fun p => p.2.best_count)).sum =
        (acc.map (fun p => p.2.best_count)).sum + entries.length := by
  intro entries
  induction entries with
  | nil => intro acc; simp
  | cons e entries ih =>
    intro acc
    rw [List.foldl_cons, ih, stats_update_count_sum]
    simp
    omega

theorem protein_stats_values :
    ∀ (entries : List ConfEntry) (acc : List (String × ProteinStats)),
      (∀ p ∈ acc, p.2.total_scores ≠ [] ∧ ∀ v ∈ p.2.total_scores, v.isSome) →
      (∀ e ∈ entries, (e.total_score).isSome) →
      ∀ p ∈ entries.foldl stats_update acc,
        p.2.total_scores ≠ [] ∧ ∀ v ∈ p.2.total_scores, v.isSome := by
  intro entries
  induction entries with
  | nil => intro acc hacc _; simpa using hacc
  | cons e entries ih =>
    intro acc hacc hvals
    rw [List.foldl_cons]
    exact ih (stats_update acc e)
      (stats_update_values acc e hacc (hvals e (by simp)))
      (fun e2 he2 => hvals e2 (List.mem_cons_of_mem _ he2))

theorem nmean_isSome (l : List (Option ℚ)) (h : ∀ v ∈ l, v.isSome) :
    (nmean l).isSome := by
  unfold nmean
  obtain ⟨xs, hxs⟩ : ∃ xs, seqOpt l = some xs := by
    induction l with
    | nil => exact ⟨[], rfl⟩
    | cons v l ih =>
      obtain ⟨x, hx⟩ := Option.isSome_iff_exists.mp (h v (by simp))
      obtain ⟨xs, hxs⟩ := ih (fun v2 hv2 => h v2 (List.mem_cons_of_mem _ hv2))
      exact ⟨x :: xs, by simp [seqOpt, hx, hxs]⟩
  rw [hxs]
  simp

theorem pLE_trans (a b c : ProteinEntry) (hab : pLE a b) (hbc : pLE b c) :
    pLE a c := by
  simp only [pLE, Bool.or_eq_true, Bool.and_eq_true, beq_iff_eq,
    decide_eq_true_eq] at *
  rcases hab with h1 | ⟨h1, h2⟩ <;> rcases hbc with g1 | ⟨g1, g2⟩
  · exact Or.inl (lt_trans g1 h1)
  · exact Or.inl (g1 ▸ h1)
  · exact Or.inl (h1 ▸ g1)
  · exact Or.inr ⟨h1.trans g1, le_trans h2 g2⟩

theorem pLE_total (a b : ProteinEntry) : pLE a b || pLE b a := by
  simp only [pLE, Bool.or_eq_true, Bool.and_eq_true, beq_iff_eq,
    decide_eq_true_eq]
  rcases Nat.lt_trichotomy a.best_count b.best_count with h | h | h
  · exact Or.inr (Or.inl h)
  · rcases le_total (a.avg_total_score.getD 0) (b.avg_total_score.getD 0) with g | g
    · exact Or.inl (Or.inr ⟨h, g⟩)
    · exact Or.inr (Or.inr ⟨h.symm, g⟩)
  · exact Or.inl (Or.inl h)

/-- C8: for every non-empty entry list with non-NaN total scores, the
protein ranking is sorted descending by win count with ties ascending by
mean total score (a stable two-key sort whose remaining ties keep the
first-seen order of the pre-sort result list, which lists winners in
first-seen order); it has one entry per protein that won at least one
conformation; and the win counts sum to the number of entries. -/
theorem protein_ranking_spec (entries : List ConfEntry)
    (hne : entries ≠ [])
    (hs : ∀ e ∈ entries, (e.total_score).isSome) :
    (rank_proteins entries).Pairwise (fun a b =>
        b.best_count < a.best_count ∨
        (a.best_count = b.best_count ∧
          a.avg_total_score.getD 0 ≤ b.avg_total_score.getD 0)) ∧
    (∀ p ∈ rank_proteins entries, (p.avg_total_score).isSome) ∧
    (∀ a b : ProteinEntry, a.best_count = b.best_count →
      a.avg_total_score = b.avg_total_score →
      List.Sublist [a, b] (protein_result entries) →
      List.Sublist [a, b] (rank_proteins entries)) ∧
    ((protein_result entries).map ProteinEntry.protein_name =
      first_dedup (entries.map ConfEntry.best_protein)) ∧
    ((rank_proteins entries).map ProteinEntry.protein_name).Nodup ∧
    (∀ p, p ∈ (rank_proteins entries).map ProteinEntry.protein_name ↔
      p ∈ entries.map ConfEntry.best_protein) ∧
    ((rank_proteins entries).map ProteinEntry.best_count).sum = entries.length := by
  have hrank : rank_proteins entries = (protein_result entries).mergeSort pLE := by
    unfold rank_proteins
    rw [if_neg hne]
  have hperm : List.Perm ((protein_result entries).mergeSort pLE)
      (protein_result entries) :=
    List.mergeSort_perm (protein_result entries) pLE
  have hkeys : (protein_result entries).map ProteinEntry.protein_name =
      first_dedup (entries.map ConfEntry.best_protein) := by
    unfold protein_result first_dedup
    rw [List.map_map]
    have := protein_stats_keys entries []
    simpa [protein_stats] using this
  have hvals := protein_stats_values entries [] (by simp) hs
  refine ⟨?_, ?_, ?_, hkeys, ?_, ?_, ?_⟩
  · rw [hrank]
    refine (List.sorted_mergeSort pLE_trans pLE_total (protein_result entries)).imp ?_
    intro a b hab
    simpa only [pLE, Bool.or_eq_true, Bool.and_eq_true, beq_iff_eq,
      decide_eq_true_eq] using hab
  · intro p hp
    rw [hrank, List.mem_mergeSort] at hp
    unfold protein_result at hp
    obtain ⟨ps, hps, rfl⟩ := List.mem_map.mp hp
    obtain ⟨-, h2⟩ := hvals ps hps
    exact nmean_isSome _ h2
  · intro a b hcount havg hsub
    rw [hrank]
    apply List.sublist_mergeSort pLE_trans pLE_total ?_ hsub
    refine List.pairwise_cons.mpr ⟨?_, by simp⟩
    intro b2 hb2
    simp only [List.mem_singleton] at hb2
    subst hb2
    simp [pLE, hcount, havg]
  · have : List.Perm
        (((protein_result entries).mergeSort pLE).map ProteinEntry.protein_name)
        ((protein_result entries).map ProteinEntry.protein_name) :=
      hperm.map _
    rw [hrank]
    rw [this.nodup_iff, hkeys]
    exact nodup_first_dedup _
  · intro p
    rw [hrank]
    constructor
    · intro hp
      obtain ⟨pe, hpe, rfl⟩ := List.mem_map.mp hp
      rw [List.mem_mergeSort] at hpe
      have : pe.protein_name ∈ (protein_result entries).map ProteinEntry.protein_name :=
        List.mem_map.mpr ⟨pe, hpe, rfl⟩
      rw [hkeys, mem_first_dedup] at this
      exact this
    · intro hp
      have : p ∈ (protein_result entries).map ProteinEntry.protein_name := by
        rw [hkeys, mem_first_dedup]
        exact hp
      obtain ⟨pe, hpe, rfl⟩ := List.mem_map.mp this
      exact List.mem_map.mpr ⟨pe, List.mem_mergeSort.mpr hpe, rfl⟩
  · rw [hrank]
    have hsum : List.Perm
        (((protein_result entries).mergeSort pLE).map ProteinEntry.best_count)
        ((protein_result entries).map ProteinEntry.best_count) := hperm.map _
    rw [hsum.sum_eq]
    unfold protein_result
    rw [List.map_map]
    have := protein_stats_count_sum entries []
    simpa [protein_stats] using this

/-- Witness for protein_ranking_spec (C8) at a concrete two-entry
ranking. -/
theorem protein_ranking_spec_witness :
    ((rank_proteins
      [⟨1, 1, some (1/2), none, none, "A", ⟨0, 0, "", []⟩⟩,
       ⟨2, 1, some (1/4), none, none, "B", ⟨0, 0, "", []⟩⟩]).map
        ProteinEntry.best_count).sum = 2 := by
  have h := protein_ranking_spec
    [⟨1, 1, some (1/2), none, none, "A", ⟨0, 0, "", []⟩⟩,
     ⟨2, 1, some (1/4), none, none, "B", ⟨0, 0, "", []⟩⟩]
    (by simp)
    (by
      intro e he
      rcases List.mem_cons.mp he with rfl | he
      · rfl
      · rcases List.mem_cons.mp he with rfl | he
        · rfl
        · exact absurd he (List.not_mem_nil e))
  exact h.2.2.2.2.2.2

/-- DataProcessor.normalize_metric, method 'min-max' (exact rational
branch).  Absent entries (NaN) are excluded from the min/max statistics;
in the degenerate equal-min-max group non-absent values map to 0.0 and
absent ones to 1.0; otherwise (value - min)/(max - min) with NaN filled
by 1.0. -/
def normalize_metric_minmax (values : List (Option ℚ)) : List ℚ :=
  match values.filterMap id with
  | [] => values.map (fun _ => 1)
  | v :: vs =>
    let min_val := vs.foldl min v
    let max_val := vs.foldl max v
    if max_val = min_val then
      values.map (fun w => if w.isSome then 0 else 1)
    else
      values.map (fun w =>
        match w with
        | some x => (x - min_val) / (max_val - min_val)
        | none => 1)

theorem foldl_min_le (l : List ℚ) : ∀ (a : ℚ), ∀ x ∈ a :: l, l.foldl min a ≤ x := by
  induction l with
  | nil =>
    intro a x hx
    simp only [List.mem_singleton] at hx
    subst hx
    exact le_refl _
  | cons b l ih =>
    intro a x hx
    have hhead : l.foldl min (min a b) ≤ min a b := ih (min a b) (min a b) (by simp)
    rcases List.mem_cons.mp hx with rfl | hx
    · exact le_trans hhead (min_le_left _ _)
    · rcases List.mem_cons.mp hx with rfl | hx
      · exact le_trans hhead (min_le_right _ _)
      · exact ih (min a b) x (List.mem_cons_of_mem _ hx)

theorem le_foldl_max (l : List ℚ) : ∀ (a : ℚ), ∀ x ∈ a :: l, x ≤ l.foldl max a := by
  induction l with
  | nil =>
    intro a x hx
    simp only [List.mem_singleton] at hx
    subst hx
    exact le_refl _
  | cons b l ih =>
    intro a x hx
    have hhead : max a b ≤ l.foldl max (max a b) := ih (max a b) (max a b) (by simp)
    rcases List.mem_cons.mp hx with rfl | hx
    · exact le_trans (le_max_left _ _) hhead
    · rcases List.mem_cons.mp hx with rfl | hx
      · exact le_trans (le_max_right _ _) hhead
      · exact ih (max a b) x (List.mem_cons_of_mem _ hx)

/-- C6: min-max normalization of a group with at least one non-absent
value: all outputs lie in [0, 1]; in the degenerate equal-min-max case
non-absent values map to 0.0 and absent ones to 1.0; otherwise each
non-absent value maps to (value - min)/(max - min) — so the minimum
maps to 0.0 and the maximum to 1.0 — and each absent value to 1.0. -/
theorem minmax_normalization_spec (values : List (Option ℚ)) (v : ℚ) (vs : List ℚ)
    (hvalid : values.filterMap id = v :: vs) :
    (∀ y ∈ normalize_metric_minmax values, 0 ≤ y ∧ y ≤ 1) ∧
    (vs.foldl max v ≠ vs.foldl min v →
      (∀ (i : Nat) (w : Option ℚ), values[i]? = some w →
        (normalize_metric_minmax values)[i]? =
          some (match w with
            | some x => (x - vs.foldl min v) / (vs.foldl max v - vs.foldl min v)
            | none => 1)) ∧
      (∀ i : Nat, values[i]? = some (some (vs.foldl min v)) →
        (normalize_metric_minmax values)[i]? = some 0) ∧
      (∀ i : Nat, values[i]? = some (some (vs.foldl max v)) →
        (normalize_metric_minmax values)[i]? = some 1)) ∧
    (vs.foldl max v = vs.foldl min v →
      ∀ (i : Nat) (w : Option ℚ), values[i]? = some w →
        (normalize_metric_minmax values)[i]? =
          some (if w.isSome then 0 else 1)) := by
  have hmm : vs.foldl min v ≤ vs.foldl max v :=
    le_trans (foldl_min_le vs v v (by simp)) (le_foldl_max vs v v (by simp))
  have hout : normalize_metric_minmax values =
      if vs.foldl max v = vs.foldl min v then
        values.map (fun w => if w.isSome then 0 else 1)
      else
        values.map (fun w =>
          match w with
          | some x => (x - vs.foldl min v) / (vs.foldl max v - vs.foldl min v)
          | none => 1) := by
    unfold normalize_metric_minmax
    rw [hvalid]
  have hbounds : ∀ x : ℚ, some x ∈ values →
      vs.foldl min v ≤ x ∧ x ≤ vs.foldl max v := by
    intro x hx
    have : x ∈ values.filterMap id := by
      rw [List.mem_filterMap]
      exact ⟨some x, hx, rfl⟩
    rw [hvalid] at this
    exact ⟨foldl_min_le vs v x this, le_foldl_max vs v x this⟩
  refine ⟨?_, fun hne => ⟨?_, ?_, ?_⟩, fun heq => ?_⟩
  · intro y hy
    rw [hout] at hy
    by_cases hdeg : vs.foldl max v = vs.foldl min v
    · rw [if_pos hdeg] at hy
      obtain ⟨w, hw, rfl⟩ := List.mem_map.mp hy
      by_cases hws : w.isSome <;> simp [hws]
    · rw [if_neg hdeg] at hy
      obtain ⟨w, hw, rfl⟩ := List.mem_map.mp hy
      have hlt : vs.foldl min v < vs.foldl max v :=
        lt_of_le_of_ne hmm (Ne.symm hdeg)
      cases w with
      | none => norm_num
      | some x =>
        obtain ⟨h1, h2⟩ := hbounds x hw
        constructor
        · apply div_nonneg (by linarith) (by linarith)
        · rw [div_le_one (by linarith)]
          linarith
  · intro i w hw
    rw [hout, if_neg hne, List.getElem?_map, hw]
    rfl
  · intro i hw
    rw [hout, if_neg hne, List.getElem?_map, hw]
    simp
  · intro i hw
    rw [hout, if_neg hne, List.getElem?_map, hw]
    have hlt : vs.foldl min v < vs.foldl max v := lt_of_le_of_ne hmm (Ne.symm hne)
    simp [div_self (by linarith : vs.foldl max v - vs.foldl min v ≠ 0)]
  · intro i w hw
    rw [hout, if_pos heq, List.getElem?_map, hw]
    rfl

/-- Witness for minmax_normalization_spec (C6) on the group
[0, 2, NaN]. -/
theorem minmax_normalization_spec_witness :
    (∀ y ∈ normalize_metric_minmax [some 0, some 2, none], 0 ≤ y ∧ y ≤ 1) ∧
    (([2].foldl max (0 : ℚ) ≠ [2].foldl min (0 : ℚ)) ∧
      (normalize_metric_minmax [some 0, some 2, none])[0]? = some 0 ∧
      (normalize_metric_minmax [some 0, some 2, none])[1]? = some 1 ∧
      (normalize_metric_minmax [some 0, some 2, none])[2]? = some 1) := by
  have h := minmax_normalization_spec [some 0, some 2, none] 0 [2] (by rfl)
  have hne : [2].foldl max (0 : ℚ) ≠ [2].foldl min 0 := by
    simp [List.foldl]
  obtain ⟨hb, hcase, -⟩ := h
  obtain ⟨hall, hmin, hmax⟩ := hcase hne
  refine ⟨hb, hne, ?_, ?_, ?_⟩
  · have := hmin 0 (by rfl)
    simpa using this
  · have := hmax 1 (by rfl)
    simpa using this
  · have := hall 2 none (by rfl)
    simpa using this

/-- The logistic function 1 / (1 + exp(-z)) used by the z-score
branch. -/
noncomputable def sigmoid (z : ℝ) : ℝ := 1 / (1 + Real.exp (-z))

/-- pandas Series.mean over the non-absent values. -/
def sampleMean (l : List ℚ) : ℚ := l.sum / (l.length : ℚ)

/-- The square of pandas Series.std (ddof = 1, sample variance):
NaN (`none`) when fewer than two values are present, else
sum of squared deviations over (n - 1).  The standard deviation itself
is its real square root. -/
def sampleVar (l : List ℚ) : Option ℚ :=
  if l.length ≤ 1 then none
  else some ((l.map (fun x => (x - sampleMean l) ^ 2)).sum / ((l.length : ℚ) - 1))

theorem sampleVar_nonneg (l : List ℚ) (s : ℚ) (h : sampleVar l = some s) :
    0 ≤ s := by
  unfold sampleVar at h
  by_cases hl : l.length ≤ 1
  · rw [if_pos hl] at h
    cases h
  · rw [if_neg hl] at h
    injection h with h
    subst h
    apply div_nonneg
    · apply List.sum_nonneg
      intro x hx
      obtain ⟨y, hy, rfl⟩ := List.mem_map.mp hx
      positivity
    · have : 2 ≤ l.length := by omega
      have h2 : (2 : ℚ) ≤ (l.length : ℚ) := by exact_mod_cast this
      linarith

/-- The pandas check `std == 0` coincides with `sampleVar = some 0`:
the standard deviation is the square root of the non-negative sample
variance, and that square root vanishes exactly when the variance
does (while a NaN standard deviation compares unequal to zero). -/
theorem sqrt_sampleVar_eq_zero_iff (l : List ℚ) (s : ℚ)
    (h : sampleVar l = some s) :
    Real.sqrt (s : ℝ) = 0 ↔ s = 0 := by
  have hs : (0 : ℝ) ≤ (s : ℝ) := by exact_mod_cast sampleVar_nonneg l s h
  rw [Real.sqrt_eq_zero hs]
  exact_mod_cast Iff.rfl

/-- DataProcessor.normalize_metric, method 'z-score'.  The non-absent
values give mean and sample standard deviation; a zero standard
deviation falls back to the degenerate min-max handling; otherwise each
non-absent value maps to sigmoid((value - mean)/std) and NaN z-values
(absent value, or NaN std from a single-value group) are filled with
z = 3.0 before the sigmoid. -/
noncomputable def normalize_metric_zscore (values : List (Option ℚ)) : List ℝ :=
  if values.filterMap id = [] then values.map (fun _ => 1)
  else if sampleVar (values.filterMap id) = some 0 then
    values.map (fun w => if w.isSome then 0 else 1)
  else
    values.map (fun w =>
      sigmoid (match sampleVar (values.filterMap id), w with
        | some s, some x =>
          ((x : ℝ) - (sampleMean (values.filterMap id) : ℝ)) / Real.sqrt (s : ℝ)
        | _, _ => 3))

theorem sigmoid_pos (z : ℝ) : 0 < sigmoid z := by
  unfold sigmoid
  have := Real.exp_pos (-z)
  positivity

theorem sigmoid_lt_one (z : ℝ) : sigmoid z < 1 := by
  unfold sigmoid
  have h := Real.exp_pos (-z)
  rw [div_lt_one (by linarith)]
  linarith

/-- C7: z-score normalization of a group whose sample standard
deviation exists and is non-zero maps each non-absent value to
sigmoid((value - mean)/std), each absent value to sigmoid(3), and every
output lies strictly between 0 and 1 (never exactly 0.0 or 1.0); when
the standard deviation is zero the degenerate min-max handling applies
(non-absent values to 0.0, absent values to 1.0). -/
theorem zscore_normalization_spec (values : List (Option ℚ)) (s : ℚ)
    (hvar : sampleVar (values.filterMap id) = some s) :
    (s ≠ 0 →
      (∀ (i : Nat) (x : ℚ), values[i]? = some (some x) →
        (normalize_metric_zscore values)[i]? =
          some (sigmoid (((x : ℝ) - (sampleMean (values.filterMap id) : ℝ)) /
            Real.sqrt (s : ℝ)))) ∧
      (∀ i : Nat, values[i]? = some none →
        (normalize_metric_zscore values)[i]? = some (sigmoid 3)) ∧
      (∀ y ∈ normalize_metric_zscore values, 0 < y ∧ y < 1)) ∧
    (s = 0 →
      ∀ (i : Nat) (w : Option ℚ), values[i]? = some w →
        (normalize_metric_zscore values)[i]? =
          some (if w.isSome then 0 else 1)) := by
  have hne : values.filterMap id ≠ [] := by
    intro hnil
    rw [hnil] at hvar
    simp [sampleVar] at hvar
  constructor
  · intro hs
    have hvz : sampleVar (values.filterMap id) ≠ some 0 := by
      rw [hvar]
      simp [hs]
    have hout : normalize_metric_zscore values =
        values.map (fun w =>
          sigmoid (match sampleVar (values.filterMap id), w with
            | some s, some x =>
              ((x : ℝ) - (sampleMean (values.filterMap id) : ℝ)) / Real.sqrt (s : ℝ)
            | _, _ => 3)) := by
      unfold normalize_metric_zscore
      rw [if_neg hne, if_neg hvz]
    refine ⟨?_, ?_, ?_⟩
    · intro i x hw
      rw [hout, List.getElem?_map, hw, hvar]
      rfl
    · intro i hw
      rw [hout, List.getElem?_map, hw, hvar]
      rfl
    · intro y hy
      rw [hout] at hy
      obtain ⟨w, hw, rfl⟩ := List.mem_map.mp hy
      exact ⟨sigmoid_pos _, sigmoid_lt_one _⟩
  · intro hs
    subst hs
    have hout : normalize_metric_zscore values =
        values.map (fun w => if w.isSome then 0 else 1) := by
      unfold normalize_metric_zscore
      rw [if_neg hne, if_pos hvar]
    intro i w hw
    rw [hout, List.getElem?_map, hw]
    rfl

/-- Witness for zscore_normalization_spec (C7) on the group
[0, 1, NaN] with sample variance 1/2. -/
theorem zscore_normalization_spec_witness :
    (normalize_metric_zscore [some 0, some 1, none])[2]? = some (sigmoid 3) := by
  have hvar : sampleVar ([some 0, some 1, none].filterMap id) = some (1/2) := by
    simp [sampleVar, sampleMean]
    norm_num
  have h := zscore_normalization_spec [some 0, some 1, none] (1/2) hvar
  exact (h.1 (by norm_num)).2.1 2 rfl

/-- C10: a group with exactly one non-absent value has an undefined
(NaN) sample standard deviation rather than a zero one, so the
degenerate branch is not taken: the NaN z-values of every entry —
including the single present value, whose z-score 0/NaN is also NaN —
are filled with 3.0, and every output equals sigmoid(3). -/
theorem zscore_single_value_spec (values : List (Option ℚ))
    (hone : (values.filterMap id).length = 1) :
    sampleVar (values.filterMap id) = none ∧
    normalize_metric_zscore values = values.map (fun _ => sigmoid 3) := by
  have hvar : sampleVar (values.filterMap id) = none := by
    unfold sampleVar
    rw [if_pos (by omega)]
  refine ⟨hvar, ?_⟩
  have hne : values.filterMap id ≠ [] := by
    intro hnil
    rw [hnil] at hone
    simp at hone
  unfold normalize_metric_zscore
  rw [if_neg hne, if_neg (by rw [hvar]; simp), hvar]

/-- Witness for zscore_single_value_spec (C10) on the group
[NaN, 5]. -/
theorem zscore_single_value_spec_witness :
    sampleVar ([none, some 5].filterMap id) = none ∧
    normalize_metric_zscore [none, some 5] =
      [none, some 5].map (fun _ => sigmoid 3) :=
  zscore_single_value_spec [none, some 5] (by rfl)

/-- Whether a row has a non-NaN value in column `m`. -/
def has_value (r : Row) (m : String) : Bool :=
  match r.vals.lookup m with
  | some (some _) => true
  | _ => false

/-- The column `m` restricted to the protein group of `p`, in row
order (pandas `group[metric]`). -/
def group_values (df : List Row) (p : String) (m : String) : List (Option ℚ) :=
  (df.filter (fun r => r.protein = p)).map (fun r => (r.vals.lookup m).join)

/-- Pointwise form of the min-max normalizer: the normalized value of
one entry given the statistics of its group. -/
def normalize_value_minmax (group : List (Option ℚ)) (w : Option ℚ) : ℚ :=
  match group.filterMap id with
  | [] => 1
  | v :: vs =>
    let min_val := vs.foldl min v
    let max_val := vs.foldl max v
    if max_val = min_val then (if w.isSome then 0 else 1)
    else
      match w with
      | some x => (x - min_val) / (max_val - min_val)
      | none => 1

/-- The min-max normalizer is positionally pointwise: each output
depends only on the entry at that position and the group statistics. -/
theorem normalize_metric_minmax_pointwise (group : List (Option ℚ)) :
    normalize_metric_minmax group = group.map (normalize_value_minmax group) := by
  unfold normalize_metric_minmax normalize_value_minmax
  cases h : group.filterMap id with
  | nil => rfl
  | cons v vs =>
    by_cases hdeg : vs.foldl max v = vs.foldl min v
    · simp only [if_pos hdeg]
    · simp only [if_neg hdeg]

/-- Whether DataProcessor.normalize_data creates the normalized column
for metric `m`: some protein group — equivalently some row — has a
non-NaN value of `m`. -/
def column_created (df : List Row) (m : String) : Bool :=
  df.any (fun r => has_value r m)

/-- The per-row effect of DataProcessor.normalize_data (min-max
instantiation; the column-creation logic is method-independent).  The
pandas assignment `normalized_data.loc[group_index, column] = values`
creates each normalized column DataFrame-wide on first assignment, so a
row whose own protein group was skipped (zero non-NaN values of the
metric) still receives the column — holding NaN — whenever any other
group has a value. -/
def add_normalized_columns (df : List Row) (r : Row) : Row :=
  { r with vals := r.vals ++
      (((REQUIRED_METRICS ++ OPTIONAL_METRICS).filter
          (fun m => column_created df m)).map
        (fun m => (get_normalized_column_name m,
          if (df.filter (fun r2 => r2.protein = r.protein)).any
              (fun r2 => has_value r2 m) then
            some (normalize_value_minmax (group_values df r.protein m)
              ((r.vals.lookup m).join))
          else none))) }

/-- DataProcessor.normalize_data with method 'min-max'. -/
def normalize_data_minmax (df : List Row) : List Row :=
  df.map (add_normalized_columns df)

theorem lookup_append_left_none {α : Type} {l1 l2 : List (String × α)}
    {k : String} (h : k ∉ l1.map Prod.fst) :
    (l1 ++ l2).lookup k = l2.lookup k := by
  induction l1 with
  | nil => rfl
  | cons a l1 ih =>
    have hka : ¬ k = a.1 := fun he => h (by simp [he])
    have hbeq : (k == a.1) = false := by simpa using hka
    rw [List.cons_append, List.lookup, hbeq]
    exact ih (fun hm => h (by simp [hm]))

theorem lookup_assoc_none {α : Type} {l : List (String × α)} {k : String}
    (h : k ∉ l.map Prod.fst) : l.lookup k = none := by
  induction l with
  | nil => rfl
  | cons a l ih =>
    have hka : ¬ k = a.1 := fun he => h (by simp [he])
    have hbeq : (k == a.1) = false := by simpa using hka
    rw [List.lookup, hbeq]
    exact ih (fun hm => h (by simp [hm]))

theorem lookup_map_assoc {α : Type} (ms : List String) (f : String → α)
    (m : String) (hnd : (ms.map get_normalized_column_name).Nodup)
    (hm : m ∈ ms) :
    (ms.map (fun m2 => (get_normalized_column_name m2, f m2))).lookup
      (get_normalized_column_name m) = some (f m) := by
  induction ms with
  | nil => cases hm
  | cons a ms ih =>
    rcases List.mem_cons.mp hm with rfl | hm2
    · simp [List.lookup]
    · rw [List.map_cons, List.nodup_cons] at hnd
      have hne : ¬ get_normalized_column_name m = get_normalized_column_name a := by
        intro he
        exact hnd.1 (he ▸ List.mem_map.mpr ⟨m, hm2, rfl⟩)
      have hbeq : (get_normalized_column_name m == get_normalized_column_name a) = false := by
        simpa using hne
      rw [List.map_cons, List.lookup, hbeq]
      exact ih hnd.2 hm2

/-- The normalized column names of the metric catalog are pairwise
distinct. -/
theorem metrics_ncol_nodup :
    ((REQUIRED_METRICS ++ OPTIONAL_METRICS).map get_normalized_column_name).Nodup := by
  simp [REQUIRED_METRICS, OPTIONAL_METRICS, get_normalized_column_name]

/-- C2 (amended): for a row whose protein group has zero non-NaN values
of a metric, normalization assigns that group no normalized values; the
composite scorer resolves the metric to the worst fallback 1.0 only
when no other protein group has a value either (so the normalized
column does not exist at all); when some other group has a value, the
column exists DataFrame-wide, the skipped group's rows hold NaN in it,
and the scorer reads NaN — not 1.0.  (As stated the claim fails in the
cross-group case.) -/
theorem normalization_skip_fallback_spec (df : List Row) (r : Row) (m : String)
    (hr : r ∈ df)
    (hm : m ∈ REQUIRED_METRICS ++ OPTIONAL_METRICS)
    (hfresh : get_normalized_column_name m ∉ r.vals.map Prod.fst)
    (hskip : ∀ r2 ∈ df, r2.protein = r.protein → has_value r2 m = false) :
    (add_normalized_columns df r ∈ normalize_data_minmax df) ∧
    (column_created df m = false →
      (add_normalized_columns df r).vals.lookup (get_normalized_column_name m)
        = none ∧
      get_normalized_value (add_normalized_columns df r) m = some 1) ∧
    (column_created df m = true →
      (add_normalized_columns df r).vals.lookup (get_normalized_column_name m)
        = some none ∧
      get_normalized_value (add_normalized_columns df r) m = none) := by
  have hluk : (add_normalized_columns df r).vals.lookup
      (get_normalized_column_name m) =
      (((REQUIRED_METRICS ++ OPTIONAL_METRICS).filter
          (fun m2 => column_created df m2)).map
        (fun m2 => (get_normalized_column_name m2,
          if (df.filter (fun r2 => r2.protein = r.protein)).any
              (fun r2 => has_value r2 m2) then
            some (normalize_value_minmax (group_values df r.protein m2)
              ((r.vals.lookup m2).join))
          else none))).lookup (get_normalized_column_name m) := by
    unfold add_normalized_columns
    exact lookup_append_left_none hfresh
  refine ⟨List.mem_map.mpr ⟨r, hr, rfl⟩, ?_, ?_⟩
  · intro hcreated
    have hmfil : m ∉ (REQUIRED_METRICS ++ OPTIONAL_METRICS).filter
        (fun m2 => column_created df m2) := by
      intro hmem
      have := (List.mem_filter.mp hmem).2
      rw [hcreated] at this
      cases this
    have hkey : get_normalized_column_name m ∉
        (((REQUIRED_METRICS ++ OPTIONAL_METRICS).filter
            (fun m2 => column_created df m2)).map
          (fun m2 => (get_normalized_column_name m2,
            if (df.filter (fun r2 => r2.protein = r.protein)).any
               (fun r2 => has_value r2 m2) then
              some (normalize_value_minmax (group_values df r.protein m2)
                ((r.vals.lookup m2).join))
            else none))).map Prod.fst := by
      rw [List.map_map]
      intro hmem
      obtain ⟨m2, hm2, heq⟩ := List.mem_map.mp hmem
      have hm2' : m2 ∈ REQUIRED_METRICS ++ OPTIONAL_METRICS :=
        (List.mem_filter.mp hm2).1
      have : m2 = m :=
        List.inj_on_of_nodup_map metrics_ncol_nodup hm2' hm heq
      subst this
      exact hmfil hm2
    have hnone := lookup_assoc_none hkey
    rw [hluk]
    refine ⟨hnone, ?_⟩
    unfold get_normalized_value
    rw [hluk, hnone]
  · intro hcreated
    have hmfil : m ∈ (REQUIRED_METRICS ++ OPTIONAL_METRICS).filter
        (fun m2 => column_created df m2) :=
      List.mem_filter.mpr ⟨hm, by rw [hcreated]⟩
    have hndfil : (((REQUIRED_METRICS ++ OPTIONAL_METRICS).filter
        (fun m2 => column_created df m2)).map get_normalized_column_name).Nodup :=
      ((List.filter_sublist _).map _).nodup metrics_ncol_nodup
    have hlk := lookup_map_assoc
      ((REQUIRED_METRICS ++ OPTIONAL_METRICS).filter (fun m2 => column_created df m2))
      (fun m2 =>
        if (df.filter (fun r2 => r2.protein = r.protein)).any
            (fun r2 => has_value r2 m2) then
          some (normalize_value_minmax (group_values df r.protein m2)
            ((r.vals.lookup m2).join))
        else none)
      m hndfil hmfil
    have hany : (df.filter (fun r2 => r2.protein = r.protein)).any
        (fun r2 => has_value r2 m) = false := by
      rw [List.any_eq_false]
      intro r2 hr2
      have h2 := List.mem_filter.mp hr2
      rw [hskip r2 h2.1 (by simpa using h2.2)]
      simp
    simp only [hany, Bool.false_eq_true, if_false] at hlk
    rw [hluk]
    refine ⟨hlk, ?_⟩
    unfold get_normalized_value
    rw [hluk, hlk]

/-- Witness for normalization_skip_fallback_spec (C2 amended): protein
group B has zero non-NaN docking scores while group A has one. -/
theorem normalization_skip_fallback_spec_witness :
    (add_normalized_columns
      [⟨1, 1, "A", [("r_i_docking_score", some (-5))]⟩,
       ⟨1, 2, "B", [("r_i_docking_score", none)]⟩]
      ⟨1, 2, "B", [("r_i_docking_score", none)]⟩ ∈
      normalize_data_minmax
        [⟨1, 1, "A", [("r_i_docking_score", some (-5))]⟩,
         ⟨1, 2, "B", [("r_i_docking_score", none)]⟩]) ∧
    (column_created
        [⟨1, 1, "A", [("r_i_docking_score", some (-5))]⟩,
         ⟨1, 2, "B", [("r_i_docking_score", none)]⟩] "r_i_docking_score" = false →
      (add_normalized_columns
        [⟨1, 1, "A", [("r_i_docking_score", some (-5))]⟩,
         ⟨1, 2, "B", [("r_i_docking_score", none)]⟩]
        ⟨1, 2, "B", [("r_i_docking_score", none)]⟩).vals.lookup
          (get_normalized_column_name "r_i_docking_score") = none ∧
      get_normalized_value
        (add_normalized_columns
          [⟨1, 1, "A", [("r_i_docking_score", some (-5))]⟩,
           ⟨1, 2, "B", [("r_i_docking_score", none)]⟩]
          ⟨1, 2, "B", [("r_i_docking_score", none)]⟩) "r_i_docking_score" = some 1) ∧
    (column_created
        [⟨1, 1, "A", [("r_i_docking_score", some (-5))]⟩,
         ⟨1, 2, "B", [("r_i_docking_score", none)]⟩] "r_i_docking_score" = true →
      (add_normalized_columns
        [⟨1, 1, "A", [("r_i_docking_score", some (-5))]⟩,
         ⟨1, 2, "B", [("r_i_docking_score", none)]⟩]
        ⟨1, 2, "B", [("r_i_docking_score", none)]⟩).vals.lookup
          (get_normalized_column_name "r_i_docking_score") = some none ∧
      get_normalized_value
        (add_normalized_columns
          [⟨1, 1, "A", [("r_i_docking_score", some (-5))]⟩,
           ⟨1, 2, "B", [("r_i_docking_score", none)]⟩]
          ⟨1, 2, "B", [("r_i_docking_score", none)]⟩) "r_i_docking_score" = none) :=
  normalization_skip_fallback_spec
    [⟨1, 1, "A", [("r_i_docking_score", some (-5))]⟩,
     ⟨1, 2, "B", [("r_i_docking_score", none)]⟩]
    ⟨1, 2, "B", [("r_i_docking_score", none)]⟩
    "r_i_docking_score"
    (by simp)
    (by simp [REQUIRED_METRICS, OPTIONAL_METRICS])
    (by simp [get_normalized_column_name])
    (by
      intro r2 hr2 hp
      rcases List.mem_cons.mp hr2 with rfl | hr2
      · simp at hp
      · rcases List.mem_cons.mp hr2 with rfl | hr2
        · rfl
        · exact absurd hr2 (List.not_mem_nil r2))

/-- C2 counterexample: metric r_i_docking_score has a value in group A
but none in group B.  After normalization the column
normalized_r_i_docking_score exists DataFrame-wide, group B's row holds
NaN in it, the scorer reads NaN instead of the worst fallback 1.0, and
the docking category score of that row is NaN, not 1.0. -/
theorem normalization_skip_fallback_counterexample :
    get_normalized_value
      (add_normalized_columns
        [⟨1, 1, "A", [("r_i_docking_score", some (-5))]⟩,
         ⟨1, 2, "B", [("r_i_docking_score", none)]⟩]
        ⟨1, 2, "B", [("r_i_docking_score", none)]⟩) "r_i_docking_score" = none ∧
    calculate_weighted_score
      (add_normalized_columns
        [⟨1, 1, "A", [("r_i_docking_score", some (-5))]⟩,
         ⟨1, 2, "B", [("r_i_docking_score", none)]⟩]
        ⟨1, 2, "B", [("r_i_docking_score", none)]⟩) DOCKING_METRICS [] = none ∧
    (none ≠ some (1 : ℚ)) := by
  refine ⟨?_, ?_, by simp⟩
  · simp [get_normalized_value, add_normalized_columns, column_created, has_value,
      group_values, normalize_value_minmax, get_normalized_column_name,
      REQUIRED_METRICS, OPTIONAL_METRICS, List.lookup]
  · simp [calculate_weighted_score, get_normalized_value, add_normalized_columns,
      column_created, has_value, group_values, normalize_value_minmax,
      get_normalized_column_name, REQUIRED_METRICS, OPTIONAL_METRICS,
      DOCKING_METRICS, List.lookup, nadd, nmul, weight_of]

end MDE
